import Mathlib

/-!
Shallow embedding of the SAC serverless-partitioning engine (hsnlab/SAC).

The definitions below are translated from the Python sources:
  * `src/alg/util.py`        — block arithmetic and partition helpers
  * `src/alg/chain_scp.py`   — the scalar chain DP (`chain_partitioning`)
  * `src/alg/chain_greedy.py`— the exhaustive chain oracle
  * `src/alg/chain_vec_SCP.py`— the vectorised chain DP
  * `src/alg/tree_meta_MTP.py`, `src/alg/tree_rec_BTP.py`,
    `src/alg/tree_greedy.py` — the tree partitioners

Numbers are embedded as `ℕ` (all inputs are positive integers), costs and
latencies stored in DP cells as `ℕ∞ = WithTop ℕ` mirroring Python's use of
`math.inf` as a sentinel.  Fallible code paths (Python exceptions such as
`TypeError` on `None` arithmetic, `IndexError`, `ValueError`,
`OverflowError`) are modelled with `Option`: a result of `none` means the
Python function raises at that input.
-/

namespace SAC

/-- Python slice `l[a:b]` for non-negative bounds (clamping like Python). -/
def pySlice (l : List ℕ) (a b : ℕ) : List ℕ := (l.take b).drop a

/-- Python `math.ceil(a / b)` for naturals (exact for the integer inputs used
by the sources); `b = 0` never occurs on executed paths. -/
def cdiv (a b : ℕ) : ℕ := (a + b - 1) / b

/-- Python `math.ceil(s / M)` where `M` may be `math.inf` (then the quotient
is `0.0` and its ceiling `0`). -/
def cdivTop (s : ℕ) : ℕ∞ → ℕ
  | ⊤ => 0
  | (m : ℕ) => cdiv s m

/-- Running maxima accumulator: `itertools.accumulate(xs, max)` seeded with
`acc` (seeding with `0` gives exactly Python's output on `ℕ`). -/
def accMax (acc : ℕ) : List ℕ → List ℕ
  | [] => []
  | x :: xs => (max acc x) :: accMax (max acc x) xs

/-- Memory of block `[b, w]`, from `alg/util.py::block_memory` (and the
identical closure in `chain_partitioning`). -/
def block_memory (memory : List ℕ) (b w : ℕ) : ℕ := (pySlice memory b (w + 1)).sum

/-- Cost of block `[b, w]`, from `alg/util.py::block_cost` (and the identical
closure in `chain_partitioning`). -/
def block_cost (runtime rate : List ℕ) (b w unit : ℕ) : ℕ :=
  rate.getD b 0 * (cdiv (pySlice runtime b (w + 1)).sum unit * unit)

/-- Latency of block `[b, w]` towards the subchain `[start, last]`, from
`alg/util.py::block_latency` (and the identical closure in
`chain_partitioning`). -/
def block_latency (runtime : List ℕ) (b w delay start last : ℕ) : ℕ :=
  if last < b ∨ w < start then 0
  else
    let blkLat := (pySlice runtime (max b start) (min w last + 1)).sum
    if start < b then delay + blkLat else blkLat

/-- CPU need of block `[b, w]`, from `alg/util.py::block_cpu` (and the
identical closure in `chain_partitioning`): a fold over `(1,)` chained with
the enumerated running maxima of the reversed rate slice. -/
def block_cpu (rate : List ℕ) (b w : ℕ) : ℕ :=
  let seg := pySlice rate b (w + 1)
  ((accMax 0 seg.reverse).enum).foldl
    (fun pre mi => max pre (cdiv mi.2 (rate.getD (w - mi.1) 0))) 1

/-! ## Scalar chain DP (`src/alg/chain_scp.py`) -/

/-- DP cell of the chain DP, from `chain_scp.py::State`; `barr = none`,
`cost = lat = ⊤` mirror the defaults `None, math.inf, math.inf`. -/
structure State where
  barr : Option ℕ := none
  cost : ℕ∞ := ⊤
  lat : ℕ∞ := ⊤
deriving DecidableEq

/-- Input record for the chain partitioners, collecting the positional and
keyword arguments of `chain_partitioning` (`last = none` is Python's
`end=None`). -/
structure ChainIn where
  runtime : List ℕ
  memory : List ℕ
  rate : List ℕ
  M : ℕ∞ := ⊤
  N : ℕ∞ := ⊤
  L : ℕ∞ := ⊤
  start : ℕ := 0
  last : Option ℕ := none
  delay : ℕ := 1
  unit : ℕ := 100
deriving DecidableEq

/-- Result triple of `chain_partitioning`: Python returns `None` components
on the infeasibility paths, hence the `Option`s; a cost of `some ⊤` is
Python's `math.inf`. -/
structure ChainRes where
  barr : Option (List ℕ)
  cost : Option ℕ∞
  lat : Option ℕ∞
deriving DecidableEq

namespace Chain

variable (I : ChainIn)

/-- Chain length `n = len(runtime)`. -/
def n : ℕ := I.runtime.length

/-- Resolved value of the `end` argument (`end = end if end is not None else n - 1`). -/
def last : ℕ := I.last.getD (n I - 1)

/-- Block memory closure of `chain_partitioning`. -/
def mem (b w : ℕ) : ℕ := block_memory I.memory b w

/-- Block CPU closure of `chain_partitioning`. -/
def cpu (b w : ℕ) : ℕ := block_cpu I.rate b w

/-- Block cost closure of `chain_partitioning`. -/
def cost (b w : ℕ) : ℕ := block_cost I.runtime I.rate b w I.unit

/-- Block latency closure of `chain_partitioning`. -/
def lat (b w : ℕ) : ℕ := block_latency I.runtime b w I.delay I.start (last I)

/-- Latency lower bound `lat_min = sum(runtime[start:end+1])`. -/
def latMin : ℕ := (pySlice I.runtime I.start (last I + 1)).sum

/-- Preflight lower bound `k_min` on the number of blocks. -/
def kMin : ℕ :=
  max (cdivTop (pySlice I.memory I.start (last I + 1)).sum I.M)
    ((I.rate.zip I.rate.tail).countP
      (fun ij => decide (((cdiv ij.2 ij.1 : ℕ) : ℕ∞) > I.N)))

/-- Preflight upper bound `k_max` (reached only when `L ≥ lat_min`). -/
def kMax : ℕ :=
  match I.L with
  | ⊤ => n I
  | (l : ℕ) => min ((l - latMin I) / I.delay + 1) (n I)

/-- First `w` at which the row-0 initialisation loop of `chain_partitioning`
breaks (`n` if it never breaks). -/
def w0stop : ℕ :=
  (((List.range (n I)).find?
    (fun w => decide ((mem I 0 w : ℕ∞) > I.M ∨ (cpu I 0 w : ℕ∞) > I.N)))).getD (n I)

/-- Cell `DP[w][0]` after the row-0 initialisation loop. -/
def row0cell (w : ℕ) : State :=
  if w < w0stop I then ⟨some 0, (cost I 0 w : ℕ∞), (lat I 0 w : ℕ∞)⟩ else {}

/-- Row `w` of the DP matrix right after initialisation (only `k = 0` set). -/
def baseRow (w : ℕ) : List State := row0cell I w :: List.replicate w {}

/-- Cell lookup `DP[w][k]` (cells outside the built triangle read as the
default `State()`). -/
def getCell (rows : List (List State)) (w k : ℕ) : State := (rows.getD w []).getD k {}

/-- Inner loop of the recurrence over `b` (descending list `bs`), carrying the
current content of `DP[w][k]`; the memory/CPU violation `break` stops the
walk, and a candidate overwrites the cell when its latency respects `L` and
its cost is `≤` the stored cost (the tie-break of the source). -/
def bstep (rows : List (List State)) (w k : ℕ) : List ℕ → State → State
  | [], cur => cur
  | b :: bs, cur =>
    if (mem I b w : ℕ∞) > I.M ∨ (cpu I b w : ℕ∞) > I.N then cur
    else
      let prev := getCell rows (b - 1) (k - 1)
      let lt := prev.lat + (lat I b w : ℕ∞)
      let cur' :=
        if lt ≤ I.L ∧ prev.cost + (cost I b w : ℕ∞) ≤ cur.cost then
          ⟨some b, prev.cost + (cost I b w : ℕ∞), lt⟩
        else cur
      bstep rows w k bs cur'

/-- Value of `DP[w][k]` computed by the loop `for b in reversed(range(k, w + 1))`. -/
def cellCalc (rows : List (List State)) (w k : ℕ) : State :=
  bstep I rows w k (List.range' k (w + 1 - k)).reverse {}

/-- Loop over `k` for row `w`, with the termination pruning
`if DP[w][k-1].lat < DP[w][k].lat == math.inf: break`. -/
def kstep (rows : List (List State)) (w : ℕ) : List ℕ → List State → List State
  | [], row => row
  | k :: ks, row =>
    let c := cellCalc I rows w k
    let row' := row.set k c
    if (row'.getD (k - 1) {}).lat < c.lat ∧ c.lat = ⊤ then row'
    else kstep rows w ks row'

/-- DP rows `0 .. w` after the main double loop has processed them. -/
def rowsUpTo : ℕ → List (List State)
  | 0 => [baseRow I 0]
  | w + 1 =>
    let prev := rowsUpTo w
    prev ++ [kstep I prev (w + 1) (List.range' 1 (w + 1)) (baseRow I (w + 1))]

/-- The full DP matrix of `chain_partitioning`. -/
def dpRows : List (List State) := rowsUpTo I (n I - 1)

/-- First index of the minimum (Python `min(range(n), key=...)`). -/
def argminAux : List ℕ∞ → ℕ → ℕ → ℕ∞ → ℕ
  | [], _, bi, _ => bi
  | x :: xs, i, bi, bv =>
    if x < bv then argminAux xs (i + 1) i x else argminAux xs (i + 1) bi bv

/-- Index of the first minimal element (`min(range(n), key=...)`); Python
raises `ValueError` on an empty range, hence `none`. -/
def argminIdx? : List ℕ∞ → Option ℕ
  | [] => none
  | x :: xs => some (argminAux xs 1 0 x)

/-- Python list indexing with negative-index wraparound; `none` is an
`IndexError`. -/
def pyIdx? {α : Type} (l : List α) (i : ℤ) : Option α :=
  if 0 ≤ i then l.get? i.toNat
  else if (-i).toNat ≤ l.length then l.get? (l.length - (-i).toNat) else none

/-- Backtracking loop of `extract_barr`; `none` models the `TypeError` /
`IndexError` Python would raise when a visited cell holds no barrier. -/
def extractGo (rows : List (List State)) : List ℕ → ℤ → List ℕ → Option (List ℕ)
  | [], _, acc => some acc.reverse
  | k :: ks, w, acc =>
    match pyIdx? rows w with
    | none => none
    | some row =>
      match row.get? k with
      | none => none
      | some st =>
        match st.barr with
        | none => none
        | some b => extractGo rows ks ((b : ℤ) - 1) (acc ++ [b])

/-- Barrier extraction `extract_barr(DP, k)` from `chain_scp.py`. -/
def extract_barr (rows : List (List State)) (k : ℕ) : Option (List ℕ) :=
  extractGo rows (List.range (k + 1)).reverse ((rows.length : ℤ) - 1) []

end Chain

open Chain in
/-- The scalar chain DP `chain_partitioning` from `src/alg/chain_scp.py`
(barrier-list mode, `ret_dp=False`); `none` models a Python exception. -/
def chain_partitioning (I : ChainIn) : Option ChainRes :=
  if I.L < (latMin I : ℕ∞) then some ⟨none, none, some (latMin I : ℕ∞)⟩
  else if kMax I < kMin I then some ⟨none, none, none⟩
  else if n I = 1 then some ⟨some [0], some (cost I 0 0 : ℕ∞), some (lat I 0 0 : ℕ∞)⟩
  else
    let rows := dpRows I
    let lastRow := rows.getD (n I - 1) []
    match argminIdx? ((List.range (n I)).map (fun x => (lastRow.getD x {}).cost)) with
    | none => none
    | some kopt =>
      let st := lastRow.getD kopt {}
      if st.cost < ⊤ then
        match extract_barr rows kopt with
        | some bs => some ⟨some bs, some st.cost, some st.lat⟩
        | none => none
      else some ⟨none, some ⊤, none⟩

/-! ## Exhaustive chain oracle (`src/alg/chain_greedy.py`) -/

/-- The `r`-combinations of a list in Python's `itertools.combinations`
order. -/
def combinations : ℕ → List ℕ → List (List ℕ)
  | 0, _ => [[]]
  | _ + 1, [] => []
  | k + 1, x :: xs => (combinations k xs).map (x :: ·) ++ combinations (k + 1) xs

/-- Powerset enumeration `ipowerset(data, start)` from `alg/util.py`; a
negative `start` makes `itertools.combinations` raise `ValueError`, hence
`none`. -/
def ipowerset (data : List ℕ) (start : ℤ) : Option (List (List ℕ)) :=
  if start < 0 then none
  else some
    (((List.range' start.toNat (data.length + 1 - start.toNat)).map
      (fun i => combinations i data)).flatten)

/-- Partition blocks from barrier nodes, `recreate_chain_blocks(barr, n)`
from `alg/util.py` (the `full=True` branch used by the oracle). -/
def recreate_chain_blocks (barr : List ℕ) (n : ℕ) : List (List ℕ) :=
  (((barr ++ [n]).zip (barr ++ [n]).tail)).map (fun bw => List.range' bw.1 (bw.2 - bw.1))

/-- Chain-cut generator `ichain_blocks` from `src/alg/chain_greedy.py`:
every cut set whose induced blocks all satisfy the memory and CPU bounds. -/
def ichain_blocks (memory : List ℕ) (M : ℕ∞) (rate : List ℕ) (N : ℕ∞) :
    Option (List (List (List ℕ))) :=
  let n := memory.length
  (ipowerset (List.range' 1 (n - 1)) ((cdivTop memory.sum M : ℤ) - 1)).map
    (fun cutsets =>
      cutsets.filterMap (fun cut =>
        let barr := 0 :: cut
        let valid := (recreate_chain_blocks barr n).filter (fun blk =>
          decide ((block_memory memory (blk.headD 0) (blk.getLastD 0) : ℕ∞) ≤ M ∧
            (block_cpu rate (blk.headD 0) (blk.getLastD 0) : ℕ∞) ≤ N))
        if valid.length = barr.length then some valid else none))

/-- Entry of the oracle's result list: a partition with its cost and
latency. -/
structure GreedyEntry where
  part : List (List ℕ)
  cost : ℕ∞
  lat : Option ℕ
deriving DecidableEq

/-- Exhaustive oracle `greedy_chain_partitioning` from
`src/alg/chain_greedy.py`; `none` models the `TypeError` raised when
`end is None` reaches `block_latency`, or the `ValueError` of `ipowerset`
on an infinite `M`. -/
def greedy_chain_partitioning (I : ChainIn) : Option (List GreedyEntry) :=
  match I.last with
  | none => none
  | some lastIdx =>
    (ichain_blocks I.memory I.M I.rate I.N).map (fun parts =>
      (parts.foldl (fun st p =>
        let sumLat : ℕ := (p.map (fun blk =>
          block_latency I.runtime (blk.headD 0) (blk.getLastD 0) I.delay I.start lastIdx)).sum
        if (sumLat : ℕ∞) > I.L then st
        else
          let sumCost : ℕ∞ :=
            ((p.map (fun blk =>
              block_cost I.runtime I.rate (blk.headD 0) (blk.getLastD 0) I.unit)).sum : ℕ)
          if sumCost = st.2 then (st.1 ++ [⟨p, sumCost, some sumLat⟩], st.2)
          else if sumCost < st.2 then ([⟨p, sumCost, some sumLat⟩], sumCost)
          else st)
        ([⟨[], ⊤, none⟩], ⊤)).1)

/-! ## Vectorised chain DP (`src/alg/chain_vec_SCP.py`)

The vectorised variant shares the recurrence of the scalar DP (its
per-`b` row updates perform exactly the scalar compare-and-overwrite per
cell, in the same order), but differs in two places that are visible in its
output: the row-0 initialisation tests the running maximum rate
`cumsum[CPU][0]` against `N` (`block_cpu(..., from_left=True)` returns the
max rate, not the CPU need), and the `k`-loop has no termination pruning. -/

namespace Chain

/-- First `w` at which the vectorised row-0 initialisation breaks: the
`from_left` CPU check compares `max(rate[0..w])` against `N`. -/
def vecW0stop (I : ChainIn) : ℕ :=
  (((List.range (n I)).find?
    (fun w => decide ((mem I 0 w : ℕ∞) > I.M ∨
      ((pySlice I.rate 0 (w + 1)).foldl max 0 : ℕ∞) > I.N)))).getD (n I)

/-- Cell `DP[w, 0]` of the vectorised DP after initialisation. -/
def vecRow0cell (I : ChainIn) (w : ℕ) : State :=
  if w < vecW0stop I then ⟨some 0, (cost I 0 w : ℕ∞), (lat I 0 w : ℕ∞)⟩ else {}

/-- Row `w` of the `n × n` vectorised DP matrix after initialisation. -/
def vecBaseRow (I : ChainIn) (w : ℕ) : List State :=
  vecRow0cell I w :: List.replicate (n I - 1) {}

/-- The `k`-cells of row `w` in the vectorised DP (no pruning `break`). -/
def vecKstep (I : ChainIn) (rows : List (List State)) (w : ℕ) :
    List ℕ → List State → List State
  | [], row => row
  | k :: ks, row => vecKstep I rows w ks (row.set k (cellCalc I rows w k))

/-- Rows `0 .. w` of the vectorised DP matrix. -/
def vecRowsUpTo (I : ChainIn) : ℕ → List (List State)
  | 0 => [vecBaseRow I 0]
  | w + 1 =>
    let prev := vecRowsUpTo I w
    prev ++ [vecKstep I prev (w + 1) (List.range' 1 (w + 1)) (vecBaseRow I (w + 1))]

/-- The full DP matrix of `vec_chain_partitioning`. -/
def vecDpRows (I : ChainIn) : List (List State) := vecRowsUpTo I (n I - 1)

end Chain

open Chain in
/-- The vectorised chain DP `vec_chain_partitioning` from
`src/alg/chain_vec_SCP.py` (barrier-list mode).  The single-node branch
calls `block_cost(0)` with the default tuple cache, on which
`cumsum[COST] += ...` raises `TypeError`, hence `none` there. -/
def vec_chain_partitioning (I : ChainIn) : Option ChainRes :=
  if I.L < (latMin I : ℕ∞) then some ⟨none, none, some (latMin I : ℕ∞)⟩
  else if kMax I < kMin I then some ⟨none, none, none⟩
  else if n I = 1 then none
  else
    let rows := vecDpRows I
    let lastRow := rows.getD (n I - 1) []
    match argminIdx? ((List.range (n I)).map (fun x => (lastRow.getD x {}).cost)) with
    | none => none
    | some kopt =>
      let st := lastRow.getD kopt {}
      if st.cost < ⊤ then
        match extract_barr rows kopt with
        | some bs => some ⟨some bs, some st.cost, some st.lat⟩
        | none => none
      else some ⟨none, some ⊤, none⟩

namespace Chain

/-- Cell `DP[w][k]` of the finished scalar DP (row `w` is final as soon as
`rowsUpTo` has processed it, later steps only append rows). -/
def cellF (I : ChainIn) (w k : ℕ) : State := getCell (rowsUpTo I w) w k

/-- Feasibility of the chain of blocks described by a descending barrier
list `ds` with tail node `w`: the head barrier `b` forms block `[b, w]`
within the memory and CPU bounds, and the rest continues with tail `b - 1`. -/
def blocksOKdesc (I : ChainIn) : List ℕ → ℕ → Prop
  | [], _ => True
  | b :: rest, w => b ≤ w ∧ (mem I b w : ℕ∞) ≤ I.M ∧ (cpu I b w : ℕ∞) ≤ I.N ∧
      (rest = [] ∨ 1 ≤ b) ∧ blocksOKdesc I rest (b - 1)

end Chain

/-! ## Specification-side formula for the block CPU demand -/

/-- Largest element of a list of naturals (`0` for the empty list). -/
def maxL (l : List ℕ) : ℕ := l.foldl max 0

/-- CPU demand as the specification words it (§4.1): the maximum over
`i ∈ [b, w]` of `ceil(m_i / rate[i])`, where `m_i` is the maximum of the
suffix `rate[i..w]`.  Stated from the spec's words, to be compared against
the source-derived `block_cpu`. -/
def cpuSpecFormula (rate : List ℕ) (b w : ℕ) : ℕ :=
  ((List.range' b (w + 1 - b)).map
    (fun i => cdiv (maxL (pySlice rate i (w + 1))) (rate.getD i 0))).foldl max 0

/-! ## Concrete chain instances used by the analysis -/

/-- Chain instance on which the DP misses the oracle optimum: 4 nodes,
latency window `[1, 3]`, `M = 10`, `L = 4`, `delay = 1`, `unit = 1`. -/
def dpGapIn : ChainIn :=
  { runtime := [1, 1, 1, 1], memory := [1, 1, 1, 1], rate := [11, 10, 8, 1],
    M := (10 : ℕ), N := ⊤, L := (4 : ℕ), start := 1, last := some 3,
    delay := 1, unit := 1 }

/-- Chain instance separating the scalar and vectorised DP: the vectorised
row-0 initialisation compares the running maximum rate (`10`) with `N = 7`
instead of the CPU need (`5`). -/
def vecGapIn : ChainIn :=
  { runtime := [100, 100], memory := [1, 1], rate := [2, 10],
    M := (100 : ℕ), N := (7 : ℕ), L := ⊤, start := 0, last := none,
    delay := 1, unit := 100 }

/-- Chain instance with an empty feasibility region in the preflight check:
`k_min = 10 > 2 = k_max`. -/
def preflightEmptyIn : ChainIn :=
  { runtime := [1, 1], memory := [5, 5], rate := [1, 1],
    M := (1 : ℕ), N := ⊤, L := ⊤, start := 0, last := none,
    delay := 1, unit := 1 }

/-- Chain instance witnessing non-monotonicity in `N`: with `N = 2` the
optimal cost is `75`, with the strictly larger `N = 3` it is `78`. -/
def nMonoIn : ChainIn :=
  { runtime := [2, 1, 1, 2, 2, 4], memory := [1, 2, 3, 4, 1, 2],
    rate := [7, 4, 9, 10, 7, 4], M := (7 : ℕ), N := (2 : ℕ), L := (29 : ℕ),
    start := 2, last := some 5, delay := 10, unit := 1 }

/-- Single-node chain whose node lies outside the latency window
`[start, end] = [1, 0]`: it is returned as the partition `[[0]]` although
its memory `100` exceeds `M = 1`. -/
def singleOutIn : ChainIn :=
  { runtime := [1], memory := [100], rate := [1], M := (1 : ℕ), N := ⊤, L := ⊤,
    start := 1, last := none, delay := 1, unit := 1 }

/-! ## Service trees (`src/alg/tree_meta_MTP.py`, `src/alg/tree_rec_BTP.py`,
`src/alg/util.py`) -/

/-- Service graph model: a rooted tree with the synthetic platform node `0`
feeding the real root, node list in insertion order, per-node runtime and
memory, and per-edge ingress rate (`sg[u][v][RATE]`). -/
structure TreeIn where
  nodes : List ℕ
  succ : ℕ → List ℕ
  runtime : ℕ → ℕ
  memory : ℕ → ℕ
  rate : ℕ → ℕ → ℕ

/-- `networkx` predecessors: the nodes whose successor list holds `v`. -/
def TreeIn.preds (T : TreeIn) (v : ℕ) : List ℕ :=
  T.nodes.filter (fun u => decide (v ∈ T.succ u))

/-- Fuelled walk of `alg/util.py::ibacktrack_chain`: yield nodes from `leaf`
back to `start` along predecessors; a node without a predecessor ends the
walk (`StopIteration` breaks the loop after the node was already yielded,
and the final `yield` emits it a second time). -/
def ibacktrackGo (T : TreeIn) (start : ℕ) : ℕ → ℕ → List ℕ
  | 0, last => [last]
  | fuel + 1, last =>
    if last = start then [last]
    else
      match (T.preds last).head? with
      | some p => last :: ibacktrackGo T start fuel p
      | none => [last, last]

/-- `alg/util.py::ibacktrack_chain` with enough fuel for any tree. -/
def ibacktrack_chain (T : TreeIn) (start leaf : ℕ) : List ℕ :=
  ibacktrackGo T start (T.nodes.length + 1) leaf

/-- The critical path `cpath = set(ibacktrack_chain(sg, root, cp_end))` of
the tree partitioners, as a duplicate-free list. -/
def cpathList (T : TreeIn) (root cp_end : ℕ) : List ℕ :=
  (ibacktrack_chain T root cp_end).dedup

/-- `c_max = math.floor(min((L - sum(runtime over cpath)) / delay,
len(cpath) - 1))` computed by `mtp_tree_partitioning` (and identically by
`btp_tree_partitioning`); for `L = math.inf` the first argument is `+inf`
and the floor of the minimum is `len(cpath) - 1`. -/
def treeCmax (T : TreeIn) (root cp_end : ℕ) (L : ℕ∞) (delay : ℕ) : ℤ :=
  let cp := cpathList T root cp_end
  let S : ℕ := (cp.map T.runtime).sum
  match L with
  | ⊤ => (cp.length : ℤ) - 1
  | (l : ℕ) => min (((l : ℤ) - (S : ℤ)).fdiv (delay : ℤ)) ((cp.length : ℤ) - 1)

/-- The latency preflight of `mtp_tree_partitioning` (the code before its DP
loop): when `c_max < 0` the function returns `([], None, c_max)` and stops;
`none` here means execution continues into the DP loop (the preceding
`label_nodes` call does not affect `cpath` or `c_max`). -/
def mtp_latency_precheck (T : TreeIn) (root cp_end : ℕ) (L : ℕ∞) (delay : ℕ) :
    Option (List ℕ × Option ℕ∞ × ℤ) :=
  let cmax := treeCmax T root cp_end L delay
  if cmax < 0 then some ([], none, cmax) else none

/-- DP subcase record of `btp_tree_partitioning` (`TBlock`), with the Python
defaults `(None, inf, 0, inf, 0, 1)`. -/
structure TBlock where
  w : Option ℕ := none
  sum_cost : ℕ∞ := ⊤
  cumsum : ℕ := 0
  mem : ℕ∞ := ⊤
  max_rate : ℕ := 0
  cpu : ℕ := 1
deriving DecidableEq

/-- The insertion filter `qinsert` of `btp_tree_partitioning`, acting on the
deque `DP[node][c_n]`: a subcase enters the queue only when its cost is
finite and its first block obeys the memory and CPU bounds; a new minimum is
appended at the front, anything else at the back. -/
def qinsert (M N : ℕ∞) (q : List TBlock) (blk : TBlock) : List TBlock :=
  if blk.sum_cost < ⊤ ∧ blk.mem ≤ M ∧ (blk.cpu : ℕ∞) ≤ N then
    if q ≠ [] ∧ blk.sum_cost ≤ (q.headD {}).sum_cost then blk :: q
    else q ++ [blk]
  else q

/-- Two-node chain-shaped service tree `platform → 1 → 2` with runtimes
`5, 5`; its critical path from root `1` to `cp_end = 2` is `{1, 2}`. -/
def latTree : TreeIn :=
  { nodes := [0, 1, 2]
    succ := fun v => if v = 0 then [1] else if v = 1 then [2] else []
    runtime := fun v => if v = 1 then 5 else if v = 2 then 5 else 0
    memory := fun _ => 1
    rate := fun _ _ => 1 }

/-- The same service chain presented as a chain input with `L = 3` below the
latency lower bound `5 + 5 = 10`. -/
def latChainIn : ChainIn :=
  { runtime := [5, 5], memory := [1, 1], rate := [1, 1],
    M := ⊤, N := ⊤, L := (3 : ℕ), start := 0, last := none,
    delay := 1, unit := 1 }

/-! # Theorems about the claims -/

/-- **C1**.  The chain DP and its exhaustive oracle disagree on
`dpGapIn`: `chain_partitioning` returns the finite cost `34` with barriers
`[0, 3]`, but the minimum cost over all partitions enumerated by
`greedy_chain_partitioning` is `32` (attained only by `[[0], [1, 2], [3]]`,
so the DP partition is not among the oracle's equi-optima either).  The DP
cell for the prefix `[0..2]` stores the cheaper subcase `[0,1][2]`
(cost 30, latency 3) and thereby loses the costlier low-latency subcase
`[0][1,2]` (cost 31, latency 2) that the optimum needs. -/
theorem C1_chain_dp_misses_oracle_optimum :
    chain_partitioning dpGapIn = some ⟨some [0, 3], some 34, some 4⟩ ∧
    greedy_chain_partitioning dpGapIn = some [⟨[[0], [1, 2], [3]], 32, some 4⟩] ∧
    (32 : ℕ∞) < 34 := by
  refine ⟨by decide, by decide, by decide⟩

/-- **C3**.  The vectorised chain DP is not output-identical to the scalar
one: on `vecGapIn` the scalar DP returns `([0], 400, 200)` while the
vectorised DP returns `([0, 1], 1200, 201)`, because the vectorised row-0
initialisation compares the running maximum rate (`10`) against `N = 7`
where the scalar code compares the CPU need (`5`). -/
theorem C3_vec_differs_from_scalar :
    chain_partitioning vecGapIn = some ⟨some [0], some 400, some 200⟩ ∧
    vec_chain_partitioning vecGapIn = some ⟨some [0, 1], some 1200, some 201⟩ ∧
    chain_partitioning vecGapIn ≠ vec_chain_partitioning vecGapIn := by
  refine ⟨by decide, by decide, by decide⟩

/-- **C5**, counterexample.  When the preflight feasibility check fails
(`k_max = 2 < 10 = k_min` on `preflightEmptyIn`), `chain_partitioning`
returns `(None, None, None)`: the cost component is Python's `None`, not the
infinity the claim asserts. -/
theorem C5_preflight_returns_null_cost :
    chain_partitioning preflightEmptyIn = some ⟨none, none, none⟩ ∧
    Chain.kMax preflightEmptyIn < Chain.kMin preflightEmptyIn ∧
    (ChainRes.cost ⟨none, none, none⟩ ≠ some ⊤) := by
  refine ⟨by decide, by decide, by decide⟩

/-- **C7**, counterexample.  Strictly enlarging the CPU bound `N` from `2`
to `3` on `nMonoIn` raises the optimal cost returned by
`chain_partitioning` from `75` to `78`. -/
theorem C7_cost_not_monotone_in_N :
    chain_partitioning nMonoIn = some ⟨some [0, 1, 2, 4, 5], some 75, some 29⟩ ∧
    chain_partitioning { nMonoIn with N := (3 : ℕ) } =
      some ⟨some [0, 1, 3, 5], some 78, some 29⟩ ∧
    (2 : ℕ∞) < 3 ∧ (75 : ℕ∞) < 78 := by
  refine ⟨by decide, by decide, by decide, by decide⟩

/-! ## Basic lemmas on `maxL`, `cdiv`, `pySlice`, `accMax` -/

theorem foldl_max_eq (l : List ℕ) : ∀ a : ℕ, l.foldl max a = max a (maxL l) := by
  induction l with
  | nil => intro a; simp [maxL]
  | cons x xs ih =>
    intro a
    have h1 := ih (max a x)
    have h2 := ih (max 0 x)
    have hm : maxL (x :: xs) = max (max 0 x) (maxL xs) := by
      simp only [maxL, List.foldl_cons]
      exact ih (max 0 x)
    simp only [List.foldl_cons]
    rw [h1, hm]
    omega

theorem maxL_cons (x : ℕ) (xs : List ℕ) : maxL (x :: xs) = max x (maxL xs) := by
  simp only [maxL, List.foldl_cons]
  rw [foldl_max_eq]
  have : (xs.foldl max 0) = maxL xs := rfl
  rw [this]
  omega

theorem maxL_append (l1 l2 : List ℕ) : maxL (l1 ++ l2) = max (maxL l1) (maxL l2) := by
  simp only [maxL, List.foldl_append]
  rw [foldl_max_eq]
  rfl

theorem maxL_reverse (l : List ℕ) : maxL l.reverse = maxL l := by
  induction l with
  | nil => rfl
  | cons x xs ih =>
    simp only [List.reverse_cons, maxL_append, ih, maxL_cons]
    have h0 : maxL ([] : List ℕ) = 0 := rfl
    omega

theorem le_maxL_of_mem {x : ℕ} {l : List ℕ} (h : x ∈ l) : x ≤ maxL l := by
  induction l with
  | nil => cases h
  | cons y ys ih =>
    rw [maxL_cons]
    rcases List.mem_cons.mp h with rfl | h'
    · omega
    · have := ih h'; omega

theorem maxL_le {l : List ℕ} {c : ℕ} (h : ∀ x ∈ l, x ≤ c) : maxL l ≤ c := by
  induction l with
  | nil => simp [maxL]
  | cons y ys ih =>
    rw [maxL_cons]
    have h1 := h y (List.mem_cons_self y ys)
    have h2 := ih (fun x hx => h x (List.mem_cons_of_mem y hx))
    omega

theorem cdiv_le_iff {a b n : ℕ} (hb : 0 < b) : cdiv a b ≤ n ↔ a ≤ n * b := by
  unfold cdiv
  rw [Nat.div_le_iff_le_mul_add_pred hb]
  have hc : b * n = n * b := Nat.mul_comm b n
  omega

theorem le_cdiv_mul (a : ℕ) {b : ℕ} (hb : 0 < b) : a ≤ cdiv a b * b :=
  (cdiv_le_iff hb).mp le_rfl

theorem cdiv_self {r : ℕ} (hr : 0 < r) : cdiv r r = 1 := by
  have h1 : cdiv r r ≤ 1 := (cdiv_le_iff hr).mpr (by omega)
  have h2 : ¬ cdiv r r ≤ 0 := by
    rw [cdiv_le_iff hr]; omega
  omega

theorem cdiv_pos {a b : ℕ} (ha : 0 < a) (hb : 0 < b) : 0 < cdiv a b := by
  by_contra h
  rw [Nat.not_lt, Nat.le_zero] at h
  have := (cdiv_le_iff hb).mp (le_of_eq h)
  omega

theorem cdiv_denom_anti {a b b' : ℕ} (hb : 0 < b) (hbb : b ≤ b') :
    cdiv a b' ≤ cdiv a b := by
  have hb' : 0 < b' := lt_of_lt_of_le hb hbb
  rw [cdiv_le_iff hb']
  calc a ≤ cdiv a b * b := le_cdiv_mul a hb
    _ ≤ cdiv a b * b' := Nat.mul_le_mul_left _ hbb

theorem cdiv_num_mono {a a' b : ℕ} (ha : a ≤ a') : cdiv a b ≤ cdiv a' b := by
  unfold cdiv
  exact Nat.div_le_div_right (by omega)

theorem pySlice_length (l : List ℕ) (a b : ℕ) :
    (pySlice l a b).length = min b l.length - a := by
  simp [pySlice]

theorem pySlice_cons {l : List ℕ} {i w : ℕ} (h1 : i ≤ w) (h2 : i < l.length) :
    pySlice l i (w + 1) = l.getD i 0 :: pySlice l (i + 1) (w + 1) := by
  unfold pySlice
  have hlt : i < (l.take (w + 1)).length := by
    rw [List.length_take]; omega
  rw [List.drop_eq_getElem_cons hlt]
  congr 1
  rw [List.getElem_take, List.getD_eq_getElem l 0 h2]

theorem pySlice_self_nil (l : List ℕ) (a : ℕ) : pySlice l a a = [] := by
  apply List.eq_nil_of_length_eq_zero
  rw [pySlice_length]
  omega

theorem accMax_append (xs ys : List ℕ) (a : ℕ) :
    accMax a (xs ++ ys) = accMax a xs ++ accMax (xs.foldl max a) ys := by
  induction xs generalizing a with
  | nil => rfl
  | cons x xs ih => simp [accMax, ih]

theorem accMax_length (l : List ℕ) (a : ℕ) : (accMax a l).length = l.length := by
  induction l generalizing a with
  | nil => rfl
  | cons x xs ih => simp [accMax, ih]

/-! ## The `block_cpu` recurrence and the C8 theorem -/

theorem block_cpu_base {rate : List ℕ} {w : ℕ} (hw : w < rate.length) :
    block_cpu rate w w = max 1 (cdiv (rate.getD w 0) (rate.getD w 0)) := by
  unfold block_cpu
  rw [pySlice_cons le_rfl hw, pySlice_self_nil]
  simp [accMax, List.enum]

theorem block_cpu_cons {rate : List ℕ} {b w : ℕ} (hb : b ≤ w) (hw : w < rate.length) :
    block_cpu rate b w =
      max (block_cpu rate (b + 1) w)
        (cdiv (maxL (pySlice rate b (w + 1))) (rate.getD b 0)) := by
  have hbl : b < rate.length := lt_of_le_of_lt hb hw
  have hseg : pySlice rate b (w + 1) = rate.getD b 0 :: pySlice rate (b + 1) (w + 1) :=
    pySlice_cons hb hbl
  have hlen : (pySlice rate (b + 1) (w + 1)).length = w - b := by
    rw [pySlice_length]; omega
  simp only [block_cpu]
  rw [hseg, List.reverse_cons, accMax_append, List.enum_append, List.foldl_append]
  have hrevfold : (pySlice rate (b + 1) (w + 1)).reverse.foldl max 0 =
      maxL (pySlice rate (b + 1) (w + 1)) := by
    have := maxL_reverse (pySlice rate (b + 1) (w + 1))
    simpa [maxL] using this
  rw [hrevfold]
  have hacclen : (accMax 0 (pySlice rate (b + 1) (w + 1)).reverse).length = w - b := by
    rw [accMax_length, List.length_reverse, hlen]
  rw [hacclen]
  have hidx : w - (w - b) = b := by omega
  simp only [accMax, List.enumFrom, List.foldl_cons, List.foldl_nil, hidx]
  congr 1
  rw [maxL_cons, Nat.max_comm]

theorem cpuSpecFormula_base {rate : List ℕ} {w : ℕ} :
    cpuSpecFormula rate w w = cdiv (maxL (pySlice rate w (w + 1))) (rate.getD w 0) := by
  unfold cpuSpecFormula
  have : w + 1 - w = 1 := by omega
  rw [this]
  simp [List.range', maxL]

theorem maxL_slice_single {rate : List ℕ} {w : ℕ} (hw : w < rate.length) :
    maxL (pySlice rate w (w + 1)) = rate.getD w 0 := by
  rw [pySlice_cons le_rfl hw, pySlice_self_nil, maxL_cons]
  have h0 : maxL ([] : List ℕ) = 0 := rfl
  omega

theorem cpuSpecFormula_cons {rate : List ℕ} {b w : ℕ} (hb : b ≤ w) :
    cpuSpecFormula rate b w =
      max (cdiv (maxL (pySlice rate b (w + 1))) (rate.getD b 0))
        (cpuSpecFormula rate (b + 1) w) := by
  unfold cpuSpecFormula
  have h1 : w + 1 - b = (w - b) + 1 := by omega
  have h2 : List.range' b ((w - b) + 1) = b :: List.range' (b + 1) (w - b) := by
    rw [List.range'_succ]
  rw [h1, h2]
  simp only [List.map_cons, List.foldl_cons]
  rw [foldl_max_eq, foldl_max_eq]
  have h3 : w + 1 - (b + 1) = w - b := by omega
  rw [h3]
  omega

theorem block_cpu_eq_spec_aux {rate : List ℕ} {w : ℕ} (hw : w < rate.length)
    (hpos : ∀ i, i < rate.length → 0 < rate.getD i 0) :
    ∀ d b, w = b + d → block_cpu rate b w = cpuSpecFormula rate b w := by
  intro d
  induction d with
  | zero =>
    intro b hb
    have hbw : b = w := by omega
    subst hbw
    rw [block_cpu_base hw, cpuSpecFormula_base, maxL_slice_single hw,
      cdiv_self (hpos b hw)]
    omega
  | succ d ih =>
    intro b hbd
    have hb : b ≤ w := by omega
    rw [block_cpu_cons hb hw, cpuSpecFormula_cons hb, ih (b + 1) (by omega),
      Nat.max_comm]

theorem maxL_slice_of_antitone {rate : List ℕ} {w : ℕ} (hw : w < rate.length) :
    ∀ d b, w = b + d →
    (∀ i, b ≤ i → i < w → rate.getD (i + 1) 0 ≤ rate.getD i 0) →
    maxL (pySlice rate b (w + 1)) = rate.getD b 0 := by
  intro d
  induction d with
  | zero =>
    intro b hb _
    have hbw : b = w := by omega
    subst hbw
    exact maxL_slice_single hw
  | succ d ih =>
    intro b hbd hanti
    have hb : b ≤ w := by omega
    have hbl : b < rate.length := by omega
    rw [pySlice_cons hb hbl, maxL_cons,
      ih (b + 1) (by omega) (fun i h1 h2 => hanti i (by omega) h2)]
    have := hanti b le_rfl (by omega)
    omega

/-- **C8**.  `block_cpu(rate, b, w)` equals the spec's formula
`max_{i ∈ [b..w]} ceil(m_i / rate[i])` with `m_i` the maximum of the suffix
`rate[i..w]`; it is `1` on blocks with monotone non-increasing rates, and a
block whose rates are non-increasing except for a single jump
`rate[j] < rate[j+1]` needs `ceil(rate[j+1] / rate[j])` cores. -/
theorem C8_block_cpu_spec (rate : List ℕ) (b w : ℕ)
    (hpos : ∀ i, i < rate.length → 0 < rate.getD i 0)
    (hbw : b ≤ w) (hw : w < rate.length) :
    block_cpu rate b w = cpuSpecFormula rate b w ∧
    ((∀ i, b ≤ i → i < w → rate.getD (i + 1) 0 ≤ rate.getD i 0) →
      block_cpu rate b w = 1) ∧
    (∀ j, b ≤ j → j < w →
      (∀ i, b ≤ i → i < j → rate.getD (i + 1) 0 ≤ rate.getD i 0) →
      (∀ i, j + 1 ≤ i → i < w → rate.getD (i + 1) 0 ≤ rate.getD i 0) →
      rate.getD j 0 < rate.getD (j + 1) 0 →
      block_cpu rate b w = cdiv (rate.getD (j + 1) 0) (rate.getD j 0)) := by
  have heq := block_cpu_eq_spec_aux hw hpos (w - b) b (by omega)
  have hform : cpuSpecFormula rate b w =
      maxL ((List.range' b (w + 1 - b)).map
        (fun i => cdiv (maxL (pySlice rate i (w + 1))) (rate.getD i 0))) := rfl
  have hmemb : ∀ i, b ≤ i → i ≤ w →
      cdiv (maxL (pySlice rate i (w + 1))) (rate.getD i 0) ∈
        (List.range' b (w + 1 - b)).map
          (fun i => cdiv (maxL (pySlice rate i (w + 1))) (rate.getD i 0)) := by
    intro i h1 h2
    exact List.mem_map.mpr ⟨i, List.mem_range'_1.mpr ⟨h1, by omega⟩, rfl⟩
  refine ⟨heq, ?_, ?_⟩
  · -- monotone non-increasing rates give CPU 1
    intro hanti
    rw [heq, hform]
    have hterm : ∀ i, b ≤ i → i ≤ w →
        cdiv (maxL (pySlice rate i (w + 1))) (rate.getD i 0) = 1 := by
      intro i h1 h2
      rw [maxL_slice_of_antitone hw (w - i) i (by omega)
        (fun i' hi1 hi2 => hanti i' (by omega) hi2)]
      exact cdiv_self (hpos i (by omega))
    apply le_antisymm
    · apply maxL_le
      intro x hx
      rcases List.mem_map.mp hx with ⟨i, hi, rfl⟩
      rcases List.mem_range'_1.mp hi with ⟨h1, h2⟩
      exact le_of_eq (hterm i h1 (by omega))
    · have := le_maxL_of_mem (hmemb b le_rfl hbw)
      rw [hterm b le_rfl hbw] at this
      exact this
  · -- a single rate jump of factor rate[j+1]/rate[j]
    intro j hbj hjw mono1 mono2 hjump
    have hjl : j < rate.length := by omega
    have hjpos := hpos j hjl
    have hj1pos := hpos (j + 1) (by omega)
    have hD : 0 < cdiv (rate.getD (j + 1) 0) (rate.getD j 0) := cdiv_pos hj1pos hjpos
    have hchar2 : ∀ i, j + 1 ≤ i → i ≤ w → maxL (pySlice rate i (w + 1)) = rate.getD i 0 := by
      intro i h1 h2
      exact maxL_slice_of_antitone hw (w - i) i (by omega)
        (fun i' hi1 hi2 => mono2 i' (by omega) hi2)
    have hcharJ : maxL (pySlice rate j (w + 1)) = max (rate.getD j 0) (rate.getD (j + 1) 0) := by
      rw [pySlice_cons (by omega) hjl, maxL_cons, hchar2 (j + 1) le_rfl (by omega)]
    have hlow : ∀ d i, i + d = j → b ≤ i → rate.getD j 0 ≤ rate.getD i 0 := by
      intro d
      induction d with
      | zero => intro i hi _; have : i = j := by omega
                subst this; exact le_rfl
      | succ d ih =>
        intro i hi hbi
        have h1 := ih (i + 1) (by omega) (by omega)
        have h2 := mono1 i hbi (by omega)
        omega
    have hchar1 : ∀ d i, i + d = j → b ≤ i →
        maxL (pySlice rate i (w + 1)) = max (rate.getD i 0) (rate.getD (j + 1) 0) := by
      intro d
      induction d with
      | zero =>
        intro i hi _
        have : i = j := by omega
        subst this; exact hcharJ
      | succ d ih =>
        intro i hi hbi
        have hil : i < rate.length := by omega
        rw [pySlice_cons (by omega) hil, maxL_cons, ih (i + 1) (by omega) (by omega)]
        have := mono1 i hbi (by omega)
        omega
    rw [heq, hform]
    apply le_antisymm
    · apply maxL_le
      intro x hx
      rcases List.mem_map.mp hx with ⟨i, hi, rfl⟩
      rcases List.mem_range'_1.mp hi with ⟨h1, h2⟩
      by_cases hij : i ≤ j
      · rw [hchar1 (j - i) i (by omega) h1]
        by_cases hc : rate.getD (j + 1) 0 ≤ rate.getD i 0
        · rw [Nat.max_eq_left hc, cdiv_self (hpos i (by omega))]
          omega
        · rw [Nat.max_eq_right (by omega)]
          exact cdiv_denom_anti hjpos (hlow (j - i) i (by omega) h1)
      · rw [hchar2 i (by omega) (by omega), cdiv_self (hpos i (by omega))]
        omega
    · have hmj := le_maxL_of_mem (hmemb j hbj (by omega))
      rw [hcharJ, Nat.max_eq_right (le_of_lt hjump)] at hmj
      exact hmj

/-- **C8**, witness.  On the block `[0, 3]` of `rate = [4, 2, 6, 3]` the
rates have a single jump `2 < 6` at `j = 1`, and `block_cpu` evaluates to
`ceil(6/2) = 3`, matching the spec formula. -/
theorem C8_block_cpu_spec_witness :
    block_cpu [4, 2, 6, 3] 0 3 = cpuSpecFormula [4, 2, 6, 3] 0 3 ∧
    block_cpu [4, 2, 6, 3] 0 3 = cdiv 6 2 := by
  have h := C8_block_cpu_spec [4, 2, 6, 3] 0 3 (by decide) (by decide) (by decide)
  refine ⟨h.1, ?_⟩
  have h3 := h.2.2 1 (by decide) (by decide)
    (by intro i h1 h2; have hi : i = 0 := by omega
        subst hi; decide)
    (by intro i h1 h2; have hi : i = 2 := by omega
        subst hi; decide)
    (by decide)
  simpa using h3

/-! ## C9: single-node chains -/

theorem cdiv_zero_left (b : ℕ) : cdiv 0 b = 0 := by
  unfold cdiv
  rcases b with _ | b
  · rfl
  · exact Nat.div_eq_of_lt (by omega)

theorem one_le_kMax {I : ChainIn} (h : 1 ≤ Chain.n I) : 1 ≤ Chain.kMax I := by
  unfold Chain.kMax
  cases I.L with
  | top => exact h
  | coe l => exact le_min (Nat.succ_le_succ (Nat.zero_le _)) h

/-- **C9**.  A single-node chain returns the partition `[[0]]` with cost
`rate[0] * ceil(runtime[0]/unit) * unit`, and latency `runtime[0]` when node
`0` lies in the latency window (i.e. `start = 0`), else latency `0`; the
memory and latency bounds are only consulted when the node is inside the
window. -/
theorem C9_single_node_chain (rt0 mem0 r0 : ℕ) (M N L : ℕ∞) (start : ℕ)
    (lastIdx : Option ℕ) (delay unit : ℕ)
    (hwin : start = 0 → (mem0 : ℕ∞) ≤ M ∧ (rt0 : ℕ∞) ≤ L) :
    chain_partitioning ⟨[rt0], [mem0], [r0], M, N, L, start, lastIdx, delay, unit⟩ =
      some ⟨some [0], some ((r0 * (cdiv rt0 unit * unit) : ℕ) : ℕ∞),
        some ((if start = 0 then rt0 else 0 : ℕ) : ℕ∞)⟩ := by
  set I : ChainIn := ⟨[rt0], [mem0], [r0], M, N, L, start, lastIdx, delay, unit⟩ with hI
  have hn : Chain.n I = 1 := rfl
  have hlast1 : 1 ≤ Chain.last I + 1 := by omega
  have hcost : Chain.cost I 0 0 = r0 * (cdiv rt0 unit * unit) := by
    show block_cost [rt0] [r0] 0 0 unit = _
    unfold block_cost pySlice
    rw [List.take_of_length_le (by simp)]
    rfl
  rcases Nat.eq_zero_or_pos start with hs | hs
  · -- node 0 inside the window
    obtain ⟨hmem, hrt⟩ := hwin hs
    have hlatmin : Chain.latMin I = rt0 := by
      unfold Chain.latMin pySlice
      rw [List.take_of_length_le (by simp)]
      simp [hI, hs]
    have h1 : ¬ I.L < (Chain.latMin I : ℕ∞) := by
      rw [hlatmin]; exact not_lt.mpr hrt
    have hkmin : Chain.kMin I ≤ 1 := by
      unfold Chain.kMin
      have hslice : (pySlice I.memory I.start (Chain.last I + 1)).sum = mem0 := by
        unfold pySlice
        rw [List.take_of_length_le (by simp)]
        simp [hI, hs]
      have hcount : ((I.rate.zip I.rate.tail).countP
          (fun ij => decide (((cdiv ij.2 ij.1 : ℕ) : ℕ∞) > I.N))) = 0 := rfl
      rw [hslice, hcount]
      rcases Nat.eq_zero_or_pos mem0 with hm0 | hm0
      · subst hm0
        cases M with
        | top => simp [cdivTop]
        | coe m => simp [cdivTop, cdiv_zero_left]
      · cases M with
        | top => simp [cdivTop]
        | coe m =>
          have hm : mem0 ≤ m := WithTop.coe_le_coe.mp hmem
          have hmpos : 0 < m := lt_of_lt_of_le hm0 hm
          simp only [cdivTop, Nat.max_le]
          exact ⟨(cdiv_le_iff hmpos).mpr (by omega), by omega⟩
    have h2 : ¬ Chain.kMax I < Chain.kMin I := by
      have := one_le_kMax (I := I) (by omega)
      omega
    have hlat : Chain.lat I 0 0 = rt0 := by
      show block_latency [rt0] 0 0 delay start (Chain.last I) = rt0
      unfold block_latency
      rw [if_neg (by omega)]
      have hmin : min 0 (Chain.last I) = 0 := by omega
      simp only [hmin, hs]
      unfold pySlice
      rw [List.take_of_length_le (by simp)]
      simp
    unfold chain_partitioning
    rw [if_neg h1, if_neg h2, if_pos hn, hcost, hlat, if_pos hs]
  · -- node 0 outside the window: no latency or memory constraint applies
    have hlatmin : Chain.latMin I = 0 := by
      unfold Chain.latMin pySlice
      apply List.sum_eq_zero
      intro x hx
      have := List.length_drop start (([rt0] : List ℕ).take (Chain.last I + 1))
      have hlen : (([rt0] : List ℕ).take (Chain.last I + 1)).length ≤ 1 := by
        simp [List.length_take]
      have : ((([rt0] : List ℕ).take (Chain.last I + 1)).drop start).length = 0 := by
        rw [List.length_drop]
        omega
      rw [List.length_eq_zero] at this
      rw [this] at hx
      cases hx
    have h1 : ¬ I.L < (Chain.latMin I : ℕ∞) := by
      rw [hlatmin]
      exact not_lt.mpr (zero_le _)
    have hkmin : Chain.kMin I ≤ 1 := by
      unfold Chain.kMin
      have hslice : (pySlice I.memory I.start (Chain.last I + 1)).sum = 0 := by
        unfold pySlice
        apply List.sum_eq_zero
        intro x hx
        have : ((([mem0] : List ℕ).take (Chain.last I + 1)).drop start).length = 0 := by
          rw [List.length_drop]
          have : (([mem0] : List ℕ).take (Chain.last I + 1)).length ≤ 1 := by
            simp [List.length_take]
          omega
        rw [List.length_eq_zero] at this
        rw [hI] at hx
        simp only at hx
        rw [this] at hx
        cases hx
      have hcount : ((I.rate.zip I.rate.tail).countP
          (fun ij => decide (((cdiv ij.2 ij.1 : ℕ) : ℕ∞) > I.N))) = 0 := rfl
      rw [hslice, hcount]
      cases M with
      | top => simp [cdivTop]
      | coe m => simp [cdivTop, cdiv_zero_left]
    have h2 : ¬ Chain.kMax I < Chain.kMin I := by
      have := one_le_kMax (I := I) (by omega)
      omega
    have hlat : Chain.lat I 0 0 = 0 := by
      show block_latency [rt0] 0 0 delay start (Chain.last I) = 0
      unfold block_latency
      rw [if_pos (Or.inr hs)]
    unfold chain_partitioning
    rw [if_neg h1, if_neg h2, if_pos hn, hcost, hlat, if_neg (by omega)]

/-! ## Structure of the scalar DP matrix -/

namespace Chain

theorem find?_range'_spec {p : ℕ → Bool} :
    ∀ {m} {s a : ℕ}, (List.range' s m).find? p = some a →
      s ≤ a ∧ a < s + m ∧ p a = true ∧ ∀ i, s ≤ i → i < a → p i = false := by
  intro m
  induction m with
  | zero => intro s a h; simp [List.range'] at h
  | succ m ih =>
    intro s a h
    rw [List.range'_succ] at h
    rcases hps : p s with _ | _
    · rw [List.find?_cons_of_neg _ (by simp [hps])] at h
      obtain ⟨h1, h2, h3, h4⟩ := ih h
      refine ⟨by omega, by omega, h3, ?_⟩
      intro i hi1 hi2
      rcases Nat.eq_or_lt_of_le hi1 with rfl | hlt
      · exact hps
      · exact h4 i hlt hi2
    · rw [List.find?_cons_of_pos _ (by simp [hps])] at h
      cases h
      exact ⟨le_rfl, by omega, hps, fun i h1 h2 => absurd h1 (by omega)⟩

variable {I : ChainIn}

theorem w0stop_le : w0stop I ≤ n I := by
  unfold w0stop
  rcases hf : ((List.range (n I)).find?
      (fun w => decide ((mem I 0 w : ℕ∞) > I.M ∨ (cpu I 0 w : ℕ∞) > I.N))) with _ | a
  · simp
  · rw [List.range_eq_range'] at hf
    have := find?_range'_spec hf
    simp only [Option.getD_some]
    omega

theorem w0stop_ok {w : ℕ} (h : w < w0stop I) :
    (mem I 0 w : ℕ∞) ≤ I.M ∧ (cpu I 0 w : ℕ∞) ≤ I.N := by
  have hw : w < n I := lt_of_lt_of_le h w0stop_le
  unfold w0stop at h
  rcases hf : ((List.range (n I)).find?
      (fun w => decide ((mem I 0 w : ℕ∞) > I.M ∨ (cpu I 0 w : ℕ∞) > I.N))) with _ | a
  · have := List.find?_eq_none.mp hf w (by
      rw [List.mem_range]; exact hw)
    simp only [decide_eq_true_eq] at this
    push_neg at this
    exact this
  · rw [List.range_eq_range'] at hf
    obtain ⟨_, _, _, h4⟩ := find?_range'_spec hf
    rw [List.range_eq_range', hf] at h
    simp only [Option.getD_some] at h
    have := h4 w (Nat.zero_le w) h
    simp only [decide_eq_false_iff_not] at this
    push_neg at this
    exact this

theorem length_rowsUpTo (w : ℕ) : (rowsUpTo I w).length = w + 1 := by
  induction w with
  | zero => rfl
  | succ w ih => simp [rowsUpTo, ih]

theorem rowsUpTo_getD_stable {v w w' : ℕ} (hvw : v ≤ w) (hww : w ≤ w') :
    (rowsUpTo I w').getD v [] = (rowsUpTo I w).getD v [] := by
  induction w' with
  | zero =>
    have : w = 0 := by omega
    subst this; rfl
  | succ w' ih =>
    rcases Nat.eq_or_lt_of_le hww with rfl | hlt
    · rfl
    · have h1 : w ≤ w' := by omega
      rw [← ih h1]
      show ((rowsUpTo I w') ++ _).getD v [] = _
      rw [List.getD_append _ _ _ _ (by rw [length_rowsUpTo]; omega)]

theorem kstep_length (rows : List (List State)) (w : ℕ) :
    ∀ ks row, (kstep I rows w ks row).length = row.length := by
  intro ks
  induction ks with
  | nil => intro row; rfl
  | cons k ks ih =>
    intro row
    simp only [kstep]
    split
    · rw [List.length_set]
    · rw [ih, List.length_set]

theorem rowsUpTo_row_length {v w : ℕ} (hvw : v ≤ w) :
    ((rowsUpTo I w).getD v []).length = v + 1 := by
  rw [rowsUpTo_getD_stable le_rfl hvw]
  cases v with
  | zero => rfl
  | succ v =>
    simp only [rowsUpTo]
    rw [List.getD_append_right _ _ _ _ (by rw [length_rowsUpTo])]
    rw [length_rowsUpTo, Nat.sub_self, List.getD_cons_zero, kstep_length]
    simp [baseRow]

theorem cellF_dp {w k : ℕ} (hw : w ≤ n I - 1) :
    getCell (dpRows I) w k = cellF I w k := by
  unfold dpRows cellF getCell
  rw [rowsUpTo_getD_stable (le_refl w) hw]

theorem cellF_stable {v w k : ℕ} (hvw : v ≤ w) :
    getCell (rowsUpTo I w) v k = cellF I v k := by
  unfold cellF getCell
  rw [rowsUpTo_getD_stable le_rfl hvw]

theorem baseRow_getD_zero (w : ℕ) : (baseRow I w).getD 0 {} = row0cell I w := rfl

theorem baseRow_getD_pos {w j : ℕ} (hj : 1 ≤ j) : (baseRow I w).getD j {} = {} := by
  unfold baseRow
  rcases j with _ | j
  · omega
  · show (List.replicate w ({} : State)).getD j {} = {}
    rw [List.getD_eq_getElem?_getD, List.getElem?_replicate]
    split <;> rfl

theorem set_getD {row : List State} {k j : ℕ} {c : State} :
    (row.set k c).getD j {} =
      if k = j ∧ k < row.length then c else row.getD j {} := by
  rw [List.getD_eq_getElem?_getD, List.getElem?_set]
  by_cases hkj : k = j
  · subst hkj
    by_cases hk : k < row.length
    · rw [if_pos rfl, if_pos hk, if_pos ⟨rfl, hk⟩]
      rfl
    · rw [if_pos rfl, if_neg hk, if_neg (by tauto)]
      rw [List.getD_eq_getElem?_getD, List.getElem?_eq_none (by omega)]
  · rw [if_neg hkj, if_neg (by tauto), List.getD_eq_getElem?_getD]

theorem kstep_getD (rows : List (List State)) (w : ℕ) :
    ∀ ks row j, (kstep I rows w ks row).getD j {} = row.getD j {} ∨
      ((kstep I rows w ks row).getD j {} = cellCalc I rows w j ∧ j ∈ ks) := by
  intro ks
  induction ks with
  | nil => intro row j; left; rfl
  | cons k ks ih =>
    intro row j
    simp only [kstep]
    split
    · rw [set_getD]
      split
      · rename_i hset
        obtain ⟨rfl, -⟩ := hset
        exact Or.inr ⟨rfl, List.mem_cons_self _ _⟩
      · left; rfl
    · rcases ih (row.set k (cellCalc I rows w k)) j with h | ⟨h, hm⟩
      · rw [h, set_getD]
        split
        · rename_i hset
          obtain ⟨rfl, -⟩ := hset
          exact Or.inr ⟨rfl, List.mem_cons_self _ _⟩
        · left; rfl
      · right
        exact ⟨h, List.mem_cons_of_mem _ hm⟩

theorem cellF_zero {w : ℕ} : cellF I w 0 = row0cell I w := by
  unfold cellF getCell
  cases w with
  | zero => rfl
  | succ w =>
    simp only [rowsUpTo]
    rw [List.getD_append_right _ _ _ _ (by rw [length_rowsUpTo])]
    rw [length_rowsUpTo, Nat.sub_self, List.getD_cons_zero]
    rcases kstep_getD (I := I) (rowsUpTo I w) (w + 1) (List.range' 1 (w + 1))
      (baseRow I (w + 1)) 0 with h | ⟨_, hm⟩
    · rw [h]; rfl
    · rw [List.mem_range'_1] at hm; omega

theorem cellF_pos {w k : ℕ} (hk : 1 ≤ k) :
    cellF I w k = {} ∨
      (1 ≤ w ∧ k ≤ w ∧ cellF I w k = cellCalc I (rowsUpTo I (w - 1)) w k) := by
  unfold cellF getCell
  cases w with
  | zero =>
    left
    show ((([baseRow I 0] : List (List State))).getD 0 []).getD k {} = {}
    simp only [List.getD_cons_zero]
    exact baseRow_getD_pos hk
  | succ w =>
    simp only [rowsUpTo]
    rw [List.getD_append_right _ _ _ _ (by rw [length_rowsUpTo])]
    rw [length_rowsUpTo, Nat.sub_self, List.getD_cons_zero]
    rcases kstep_getD (I := I) (rowsUpTo I w) (w + 1) (List.range' 1 (w + 1))
      (baseRow I (w + 1)) k with h | ⟨h, hm⟩
    · left
      rw [h]
      exact baseRow_getD_pos hk
    · right
      rw [List.mem_range'_1] at hm
      exact ⟨by omega, by omega, by simpa using h⟩

/-- Every value produced by the inner `b` loop is either the state it
started from or a candidate written for some `b` in the scanned list after
passing the memory/CPU test. -/
theorem bstep_cases (rows : List (List State)) (w k : ℕ) :
    ∀ bs cur, bstep I rows w k bs cur = cur ∨
      ∃ b ∈ bs, ¬((mem I b w : ℕ∞) > I.M ∨ (cpu I b w : ℕ∞) > I.N) ∧
        bstep I rows w k bs cur =
          ⟨some b, (getCell rows (b - 1) (k - 1)).cost + (cost I b w : ℕ∞),
            (getCell rows (b - 1) (k - 1)).lat + (lat I b w : ℕ∞)⟩ := by
  intro bs
  induction bs with
  | nil => intro cur; left; rfl
  | cons b bs ih =>
    intro cur
    simp only [bstep]
    split
    · left; rfl
    · rename_i hbrk
      split
      · rcases ih ⟨some b, (getCell rows (b - 1) (k - 1)).cost + (cost I b w : ℕ∞),
          (getCell rows (b - 1) (k - 1)).lat + (lat I b w : ℕ∞)⟩ with h | ⟨b', hb', hbrk', h⟩
        · right
          exact ⟨b, List.mem_cons_self _ _, hbrk, h⟩
        · right
          exact ⟨b', List.mem_cons_of_mem _ hb', hbrk', h⟩
      · exact (ih cur).imp id (fun ⟨b', hb', hb2, hb3⟩ =>
          ⟨b', List.mem_cons_of_mem _ hb', hb2, hb3⟩)

/-- Soundness invariant of the finished DP cells: a finite cell holds a
barrier `b ∈ [k, w]` whose block `[b, w]` obeys the bounds, and (for
`k ≥ 1`) its cost extends the finite cell `(b-1, k-1)` by the block cost
(for `k = 0` the cell is the row-0 single block `[0, w]`). -/
theorem cell_inv : ∀ w k, (cellF I w k).cost < ⊤ →
    ∃ b, (cellF I w k).barr = some b ∧ k ≤ b ∧ b ≤ w ∧
      (mem I b w : ℕ∞) ≤ I.M ∧ (cpu I b w : ℕ∞) ≤ I.N ∧
      ((k = 0 ∧ b = 0 ∧ (cellF I w k).cost = (cost I 0 w : ℕ∞)) ∨
       (1 ≤ k ∧ (cellF I (b - 1) (k - 1)).cost < ⊤ ∧
        (cellF I w k).cost = (cellF I (b - 1) (k - 1)).cost + (cost I b w : ℕ∞))) := by
  intro w k hfin
  rcases k with _ | k
  · -- row-0 cell
    rw [cellF_zero] at hfin ⊢
    unfold row0cell at hfin ⊢
    split at hfin
    · rename_i hlt
      obtain ⟨hm, hc⟩ := w0stop_ok (I := I) hlt
      rw [if_pos hlt]
      exact ⟨0, rfl, le_rfl, Nat.zero_le w, hm, hc, Or.inl ⟨rfl, rfl, rfl⟩⟩
    · simp at hfin
  · -- k ≥ 1: cell computed by `bstep` or left default
    rcases cellF_pos (I := I) (w := w) (k := k + 1) (by omega) with h | ⟨hw1, hkw, h⟩
    · rw [h] at hfin; simp at hfin
    · rw [h] at hfin ⊢
      unfold cellCalc at hfin ⊢
      rcases bstep_cases (I := I) (rowsUpTo I (w - 1)) w (k + 1)
        ((List.range' (k + 1) (w + 1 - (k + 1))).reverse) {} with hc | ⟨b, hb, hbrk, hc⟩
      · rw [hc] at hfin; simp at hfin
      · rw [hc] at hfin ⊢
        have hbm : (k + 1) ≤ b ∧ b ≤ w := by
          rw [List.mem_reverse, List.mem_range'_1] at hb
          omega
        have hprev : getCell (rowsUpTo I (w - 1)) (b - 1) (k + 1 - 1) =
            cellF I (b - 1) (k + 1 - 1) := cellF_stable (by omega)
        rw [hprev] at hfin ⊢
        push_neg at hbrk
        have hpf : (cellF I (b - 1) (k + 1 - 1)).cost < ⊤ := by
          rcases lt_or_ge (cellF I (b - 1) (k + 1 - 1)).cost ⊤ with h' | h'
          · exact h'
          · have : (cellF I (b - 1) (k + 1 - 1)).cost = ⊤ := top_le_iff.mp h'
            rw [this] at hfin
            simp at hfin
        exact ⟨b, rfl, hbm.1, hbm.2, hbrk.1, hbrk.2,
          Or.inr ⟨by omega, hpf, rfl⟩⟩

theorem dpRows_length (h : 1 ≤ n I) : (dpRows I).length = n I := by
  unfold dpRows
  rw [length_rowsUpTo]
  omega

theorem get?_of_lt {α : Type} {l : List α} {j : ℕ} {d : α} (h : j < l.length) :
    l.get? j = some (l.getD j d) := by
  rw [List.get?_eq_getElem?, List.getElem?_eq_getElem h, List.getD_eq_getElem l d h]

theorem range_reverse_succ (k : ℕ) :
    (List.range (k + 1)).reverse = k :: (List.range k).reverse := by
  rw [List.range_succ, List.reverse_append]
  rfl

/-- Specification of `extract_barr`'s backtracking: starting from a finite
cell `(w, k)`, it succeeds and yields (reversed onto `acc`) a descending
barrier list of length `k + 1` whose blocks obey the bounds down from tail
`w`. -/
theorem extract_spec : ∀ k w acc, w ≤ n I - 1 → k ≤ w → 1 ≤ n I →
    (cellF I w k).cost < ⊤ →
    ∃ ds, ds.length = k + 1 ∧ blocksOKdesc I ds w ∧
      extractGo (dpRows I) (List.range (k + 1)).reverse ((w : ℕ) : ℤ) acc =
        some ((acc ++ ds).reverse) := by
  intro k
  induction k with
  | zero =>
    intro w acc hw hkw hn hfin
    obtain ⟨b, hbarr, -, -, hm, hc, hcase⟩ := cell_inv (I := I) w 0 hfin
    have hb0 : b = 0 := by
      rcases hcase with ⟨-, h, -⟩ | ⟨h, -⟩
      · exact h
      · omega
    subst hb0
    refine ⟨[0], rfl, ⟨Nat.zero_le w, hm, hc, Or.inl rfl, trivial⟩, ?_⟩
    have hrow' : (dpRows I).get? w = some ((rowsUpTo I w).getD w []) := by
      rw [get?_of_lt (d := []) (by rw [dpRows_length hn]; omega)]
      unfold dpRows
      rw [rowsUpTo_getD_stable le_rfl (by omega)]
    have hst : ((rowsUpTo I w).getD w []).get? 0 = some (cellF I w 0) := by
      rw [get?_of_lt (d := {}) (by rw [rowsUpTo_row_length le_rfl]; omega)]
      rfl
    show extractGo (dpRows I) [0] ((w : ℕ) : ℤ) acc = _
    unfold extractGo pyIdx?
    rw [if_pos (by positivity), Int.toNat_natCast, hrow']
    dsimp only
    rw [hst]
    dsimp only
    rw [hbarr]
    rfl
  | succ k ih =>
    intro w acc hw hkw hn hfin
    obtain ⟨b, hbarr, hkb, hbw, hm, hc, hcase⟩ := cell_inv (I := I) w (k + 1) hfin
    rcases hcase with ⟨h0, -, -⟩ | ⟨-, hpf, -⟩
    · omega
    · obtain ⟨ds', hlen', hok', hgo'⟩ := ih (b - 1) (acc ++ [b]) (by omega) (by omega) hn hpf
      refine ⟨b :: ds', by simp [hlen'], ⟨hbw, hm, hc, Or.inr (by omega), hok'⟩, ?_⟩
      have hrow' : (dpRows I).get? w = some ((rowsUpTo I w).getD w []) := by
        rw [get?_of_lt (d := []) (by rw [dpRows_length hn]; omega)]
        unfold dpRows
        rw [rowsUpTo_getD_stable le_rfl (by omega)]
      have hst : ((rowsUpTo I w).getD w []).get? (k + 1) = some (cellF I w (k + 1)) := by
        rw [get?_of_lt (d := {}) (by rw [rowsUpTo_row_length le_rfl]; omega)]
        rfl
      rw [range_reverse_succ]
      show extractGo (dpRows I) ((k + 1) :: (List.range (k + 1)).reverse)
        ((w : ℕ) : ℤ) acc = _
      unfold extractGo pyIdx?
      rw [if_pos (by positivity), Int.toNat_natCast, hrow']
      dsimp only
      rw [hst]
      dsimp only
      rw [hbarr]
      dsimp only
      have hcast : ((b : ℤ) - 1) = (((b - 1 : ℕ)) : ℤ) := by omega
      rw [hcast, hgo']
      congr 1
      rw [List.append_assoc]
      rfl

/-- Specification of the running-minimum fold behind `argminIdx?`: relative
to a base list `l` and a sound accumulator, the result is an in-range index
holding a minimal value, and strictly smaller than every earlier entry. -/
theorem argminAux_spec {l : List ℕ∞} :
    ∀ (xs : List ℕ∞) (i bi : ℕ) (bv : ℕ∞),
      bi < i →
      bv = l.getD bi ⊤ →
      (∀ j, j < i → bv ≤ l.getD j ⊤) →
      (∀ j, j < bi → bv < l.getD j ⊤) →
      (∀ t, t < xs.length → xs.getD t ⊤ = l.getD (i + t) ⊤) →
      i + xs.length = l.length →
      argminAux xs i bi bv < l.length ∧
      (∀ j, j < l.length → l.getD (argminAux xs i bi bv) ⊤ ≤ l.getD j ⊤) ∧
      (∀ j, j < argminAux xs i bi bv → l.getD (argminAux xs i bi bv) ⊤ < l.getD j ⊤) := by
  intro xs
  induction xs with
  | nil =>
    intro i bi bv h1 h2 h3 h4 _ h6
    simp only [argminAux]
    simp only [List.length_nil] at h6
    refine ⟨by omega, ?_, ?_⟩
    · intro j hj
      rw [← h2]
      exact h3 j (by omega)
    · intro j hj
      rw [← h2]
      exact h4 j hj
  | cons x xs ih =>
    intro i bi bv h1 h2 h3 h4 h5 h6
    have hx : x = l.getD i ⊤ := by
      have := h5 0 (by simp)
      simpa using this
    simp only [argminAux]
    split
    · rename_i hlt
      apply ih (i + 1) i x (by omega) hx
      · intro j hj
        rcases Nat.lt_or_ge j i with h | h
        · exact le_of_lt (lt_of_lt_of_le (hx ▸ hlt) (h3 j h))
        · have : j = i := by omega
          subst this
          rw [← hx]
      · intro j hj
        exact lt_of_lt_of_le (hx ▸ hlt) (h3 j hj)
      · intro t ht
        have := h5 (t + 1) (by simpa using Nat.succ_lt_succ ht)
        simpa [Nat.add_assoc, Nat.add_comm 1 t] using this
      · simp only [List.length_cons] at h6
        omega
    · rename_i hge
      apply ih (i + 1) bi bv (by omega) h2
      · intro j hj
        rcases Nat.lt_or_ge j i with h | h
        · exact h3 j h
        · have : j = i := by omega
          subst this
          rw [← hx]
          exact not_lt.mp hge
      · exact h4
      · intro t ht
        have := h5 (t + 1) (by simpa using Nat.succ_lt_succ ht)
        simpa [Nat.add_assoc, Nat.add_comm 1 t] using this
      · simp only [List.length_cons] at h6
        omega

theorem map_range_getD (f : ℕ → ℕ∞) (m j : ℕ) (hj : j < m) :
    ((List.range m).map f).getD j ⊤ = f j := by
  rw [List.getD_eq_getElem?_getD, List.getElem?_map]
  rw [List.getElem?_eq_getElem (by simpa using hj)]
  simp

theorem pairs_append (l : List ℕ) (x y : ℕ) :
    ((l ++ [x, y]).zip (l ++ [x, y]).tail) =
      ((l ++ [x]).zip (l ++ [x]).tail) ++ [(x, y)] := by
  induction l with
  | nil => rfl
  | cons a l ih =>
    cases l with
    | nil => rfl
    | cons a' l' =>
      simp only [List.cons_append, List.tail_cons, List.zip_cons_cons]
      rw [← List.cons_append, ← List.cons_append]
      have := ih
      simp only [List.cons_append, List.tail_cons, List.zip_cons_cons] at this ⊢
      rw [this]

theorem recreate_concat (A : List ℕ) (b w : ℕ) :
    recreate_chain_blocks (A ++ [b]) (w + 1) =
      recreate_chain_blocks A b ++ [List.range' b (w + 1 - b)] := by
  unfold recreate_chain_blocks
  rw [List.append_assoc]
  show ((A ++ [b, w + 1]).zip (A ++ [b, w + 1]).tail).map _ = _
  rw [pairs_append, List.map_append]
  rfl

theorem range'_headD (b m : ℕ) : (List.range' b (m + 1)).headD 0 = b := by
  rw [List.range'_succ]
  rfl

theorem range'_getLastD (b : ℕ) : ∀ m, (List.range' b (m + 1)).getLastD 0 = b + m := by
  intro m
  induction m with
  | zero => rfl
  | succ m ih =>
    rw [List.range'_concat]
    simp

/-- The blocks recreated from a reversed descending barrier list all satisfy
the memory and CPU bounds recorded by `blocksOKdesc`. -/
theorem blocksOKdesc_blocks :
    ∀ ds w, blocksOKdesc I ds w →
      ∀ blk ∈ recreate_chain_blocks ds.reverse (w + 1),
        (mem I (blk.headD 0) (blk.getLastD 0) : ℕ∞) ≤ I.M ∧
        (cpu I (blk.headD 0) (blk.getLastD 0) : ℕ∞) ≤ I.N := by
  intro ds
  induction ds with
  | nil =>
    intro w _ blk hblk
    simp [recreate_chain_blocks] at hblk
  | cons b rest ih =>
    intro w hok blk hblk
    obtain ⟨hbw, hm, hc, hone, hrest⟩ := hok
    have hblk' : blk ∈ recreate_chain_blocks rest.reverse b ++
        [List.range' b (w + 1 - b)] := by
      rw [List.reverse_cons, recreate_concat] at hblk
      exact hblk
    rcases List.mem_append.mp hblk' with h | h
    · -- block inside the remaining chain
      cases rest with
      | nil => simp [recreate_chain_blocks] at h
      | cons r rest' =>
        have hb1 : 1 ≤ b := by
          rcases hone with h' | h'
          · cases h'
          · exact h'
        have : blk ∈ recreate_chain_blocks (r :: rest').reverse ((b - 1) + 1) := by
          have hb : (b - 1) + 1 = b := by omega
          rw [hb]
          exact h
        exact ih (b - 1) hrest blk this
    · rw [List.mem_singleton] at h
      subst h
      have hcnt : w + 1 - b = (w - b) + 1 := by omega
      rw [hcnt, range'_headD, range'_getLastD]
      have : b + (w - b) = w := by omega
      rw [this]
      exact ⟨hm, hc⟩

/-- Dissection of a successful run of the main DP branch of
`chain_partitioning`: the returned barrier list comes from backtracking the
first (smallest) cost-minimal cell of the last DP row. -/
theorem main_branch_spec {I : ChainIn} {bs : List ℕ} {c lt : Option ℕ∞}
    (hn : 2 ≤ n I) (h : chain_partitioning I = some ⟨some bs, c, lt⟩) :
    ∃ kopt, kopt < n I ∧ (cellF I (n I - 1) kopt).cost < ⊤ ∧
      c = some (cellF I (n I - 1) kopt).cost ∧
      bs.length = kopt + 1 ∧
      (∃ ds, bs = ds.reverse ∧ blocksOKdesc I ds (n I - 1)) ∧
      (∀ j, j < n I → (cellF I (n I - 1) kopt).cost ≤ (cellF I (n I - 1) j).cost) ∧
      (∀ j, j < kopt → (cellF I (n I - 1) kopt).cost < (cellF I (n I - 1) j).cost) := by
  have hn1 : 1 ≤ n I := by omega
  simp only [chain_partitioning] at h
  rw [if_neg ?hc1] at h
  case hc1 =>
    intro hcon
    rw [if_pos hcon] at h
    simp at h
  by_cases hc2 : kMax I < kMin I
  · rw [if_pos hc2] at h
    simp at h
  rw [if_neg hc2, if_neg (by omega)] at h
  set costs := (List.range (n I)).map
    (fun x => (((dpRows I).getD (n I - 1) []).getD x {}).cost) with hcostsdef
  have hcosts : ∀ j, j < n I → costs.getD j ⊤ = (cellF I (n I - 1) j).cost := by
    intro j hj
    rw [hcostsdef, map_range_getD _ _ _ hj]
    show (getCell (dpRows I) (n I - 1) j).cost = _
    rw [cellF_dp le_rfl]
  have hclen : costs.length = n I := by simp [hcostsdef]
  cases hcs : costs with
  | nil => rw [hcs] at hclen; simp at hclen; omega
  | cons c0 crest =>
    rw [hcs] at h
    simp only [argminIdx?] at h
    set kopt := argminAux crest 1 0 c0 with hkodef
    have hspec := argminAux_spec (l := costs) crest 1 0 c0 (by omega)
      (by rw [hcs]; rfl)
      (by intro j hj
          have : j = 0 := by omega
          subst this
          rw [hcs]
          exact le_rfl)
      (by intro j hj; omega)
      (by intro t ht
          rw [hcs, Nat.add_comm 1 t]
          rfl)
      (by rw [hcs]; simp; omega)
    rw [← hkodef] at hspec
    obtain ⟨hko1, hko2, hko3⟩ := hspec
    rw [hclen] at hko1
    have hstcell : ((dpRows I).getD (n I - 1) []).getD kopt {} = cellF I (n I - 1) kopt := by
      show getCell (dpRows I) (n I - 1) kopt = _
      rw [cellF_dp le_rfl]
    rw [hstcell] at h
    by_cases hfin : (cellF I (n I - 1) kopt).cost < ⊤
    · rw [if_pos hfin] at h
      obtain ⟨ds, hdslen, hdsok, hdsgo⟩ := extract_spec (I := I) kopt (n I - 1) []
        (le_rfl) (by omega) hn1 hfin
      have hext : extract_barr (dpRows I) kopt = some ds.reverse := by
        unfold extract_barr
        have hlen : ((dpRows I).length : ℤ) - 1 = (((n I - 1 : ℕ)) : ℤ) := by
          rw [dpRows_length hn1]
          omega
        rw [hlen, hdsgo]
        simp
      rw [hext] at h
      simp only [Option.some.injEq, ChainRes.mk.injEq] at h
      obtain ⟨hbs, hcc, -⟩ := h
      refine ⟨kopt, hko1, hfin, hcc.symm, ?_, ⟨ds, hbs.symm, hdsok⟩, ?_, ?_⟩
      · rw [← hbs]
        simp [hdslen]
      · intro j hj
        have := hko2 j (by omega)
        rwa [hcosts kopt hko1, hcosts j hj] at this
      · intro j hj
        have := hko3 j hj
        rwa [hcosts kopt hko1, hcosts j (by omega)] at this
    · rw [if_neg hfin] at h
      simp at h

/-- Every block of a partition returned through the DP path satisfies the
memory and CPU bounds. -/
theorem chain_blocks_within_bounds {I : ChainIn} {bs : List ℕ} {c lt : Option ℕ∞}
    (hn : 2 ≤ n I) (h : chain_partitioning I = some ⟨some bs, c, lt⟩) :
    ∀ blk ∈ recreate_chain_blocks bs (n I),
      (block_memory I.memory (blk.headD 0) (blk.getLastD 0) : ℕ∞) ≤ I.M ∧
      (block_cpu I.rate (blk.headD 0) (blk.getLastD 0) : ℕ∞) ≤ I.N := by
  obtain ⟨k, -, -, -, -, ⟨ds, hbs, hok⟩, -, -⟩ := main_branch_spec hn h
  intro blk hblk
  have hn' : n I = (n I - 1) + 1 := by omega
  rw [hbs, hn'] at hblk
  exact blocksOKdesc_blocks ds (n I - 1) hok blk hblk

end Chain

namespace Chain

/-- The stored cost never increases while the `b` loop scans candidates. -/
theorem bstep_cost_mono {I : ChainIn} (rows : List (List State)) (w k : ℕ) :
    ∀ bs cur, (bstep I rows w k bs cur).cost ≤ cur.cost := by
  intro bs
  induction bs with
  | nil => intro cur; exact le_rfl
  | cons b bs ih =>
    intro cur
    simp only [bstep]
    split
    · exact le_rfl
    · split
      · rename_i hupd
        exact le_trans (ih _) hupd.2
      · exact ih cur

/-- With all bounds infinite, no candidate is ever rejected, so the cell is
at most each candidate's value. -/
theorem bstep_top_le {J : ChainIn} (hM : J.M = ⊤) (hN : J.N = ⊤) (hL : J.L = ⊤)
    (rows : List (List State)) (w k : ℕ) :
    ∀ bs cur b, b ∈ bs →
      (bstep J rows w k bs cur).cost ≤
        (getCell rows (b - 1) (k - 1)).cost + (cost J b w : ℕ∞) := by
  intro bs
  induction bs with
  | nil => intro cur b hb; cases hb
  | cons b' bs ih =>
    intro cur b hb
    simp only [bstep]
    rw [if_neg (by rw [hM, hN]; simp)]
    rcases List.mem_cons.mp hb with rfl | hb'
    · split
      · exact le_trans (bstep_cost_mono rows w k bs _) le_rfl
      · rename_i hupd
        rw [hL] at hupd
        simp only [le_top, true_and] at hupd
        exact le_trans (bstep_cost_mono rows w k bs _) (le_of_not_le hupd)
    · split
      · exact ih _ b hb'
      · exact ih _ b hb'

/-- With all bounds infinite, a non-empty candidate scan starting from the
default cell ends in a state whose cost and latency are finite, provided
every candidate's predecessor cell is finite. -/
theorem bstep_top_fin {J : ChainIn} (hM : J.M = ⊤) (hN : J.N = ⊤) (hL : J.L = ⊤)
    (rows : List (List State)) (w k : ℕ) :
    ∀ bs cur,
      (∀ b ∈ bs, (getCell rows (b - 1) (k - 1)).cost < ⊤ ∧
        (getCell rows (b - 1) (k - 1)).lat < ⊤) →
      ((cur.cost < ⊤ ∧ cur.lat < ⊤) ∨ (cur = {} ∧ bs ≠ [])) →
      (bstep J rows w k bs cur).cost < ⊤ ∧ (bstep J rows w k bs cur).lat < ⊤ := by
  intro bs
  induction bs with
  | nil =>
    intro cur hprev hcur
    rcases hcur with h | ⟨-, h⟩
    · exact h
    · exact absurd rfl h
  | cons b bs ih =>
    intro cur hprev hcur
    have hpb := hprev b (List.mem_cons_self _ _)
    simp only [bstep]
    rw [if_neg (by rw [hM, hN]; simp)]
    have hcand : ((getCell rows (b - 1) (k - 1)).cost + (cost J b w : ℕ∞) < ⊤) ∧
        ((getCell rows (b - 1) (k - 1)).lat + (lat J b w : ℕ∞) < ⊤) := by
      constructor
      · exact WithTop.add_lt_top.mpr ⟨hpb.1, WithTop.coe_lt_top _⟩
      · exact WithTop.add_lt_top.mpr ⟨hpb.2, WithTop.coe_lt_top _⟩
    split
    · exact ih _ (fun b' hb' => hprev b' (List.mem_cons_of_mem _ hb'))
        (Or.inl ⟨hcand.1, hcand.2⟩)
    · rename_i hupd
      rw [hL] at hupd
      simp only [le_top, true_and] at hupd
      rcases hcur with h | ⟨rfl, -⟩
      · exact ih _ (fun b' hb' => hprev b' (List.mem_cons_of_mem _ hb')) (Or.inl h)
      · exact absurd le_top hupd

/-- If no cell computed for the `k` list has infinite latency, the pruning
never fires and every listed cell is written. -/
theorem kstep_all {I : ChainIn} (rows : List (List State)) (w : ℕ) :
    ∀ ks row, (∀ k ∈ ks, (cellCalc I rows w k).lat ≠ ⊤) →
      (∀ k ∈ ks, k < row.length) →
      ∀ j ∈ ks, (kstep I rows w ks row).getD j {} = cellCalc I rows w j := by
  intro ks
  induction ks with
  | nil => intro row _ _ j hj; cases hj
  | cons k ks ih =>
    intro row hlat hlen j hj
    simp only [kstep]
    rw [if_neg (by
      intro hcon
      exact hlat k (List.mem_cons_self _ _) hcon.2)]
    rcases List.mem_cons.mp hj with rfl | hj'
    · rcases kstep_getD (I := I) rows w ks (row.set j (cellCalc I rows w j)) j with
        h | ⟨h, -⟩
      · rw [h, set_getD, if_pos ⟨rfl, hlen j (List.mem_cons_self _ _)⟩]
      · exact h
    · exact ih (row.set k (cellCalc I rows w k))
        (fun k' hk' => hlat k' (List.mem_cons_of_mem _ hk'))
        (fun k' hk' => by
          rw [List.length_set]
          exact hlen k' (List.mem_cons_of_mem _ hk')) j hj'

/-- Characterisation of a `k ≥ 1` cell of a processed row as the value
written by `kstep` on row `w`. -/
theorem cellF_succ_eq {I : ChainIn} {w : ℕ} (hw : 1 ≤ w) (k : ℕ) :
    cellF I w k =
      (kstep I (rowsUpTo I (w - 1)) w (List.range' 1 w) (baseRow I w)).getD k {} := by
  unfold cellF getCell
  cases w with
  | zero => omega
  | succ w =>
    simp only [rowsUpTo]
    rw [List.getD_append_right _ _ _ _ (by rw [length_rowsUpTo])]
    rw [length_rowsUpTo, Nat.sub_self, List.getD_cons_zero]
    rfl

/-- With infinite memory and CPU bounds the row-0 initialisation loop never
breaks. -/
theorem top_w0stop {J : ChainIn} (hM : J.M = ⊤) (hN : J.N = ⊤) :
    w0stop J = n J := by
  unfold w0stop
  rw [List.find?_eq_none.mpr ?_]
  · rfl
  · intro w _
    rw [hM, hN]
    simp

/-- Any cell computed on row `w` of a run with all bounds infinite is finite
(in cost and latency), as soon as all earlier rows' cells are. -/
theorem cellCalc_top_fin {J : ChainIn} (hM : J.M = ⊤) (hN : J.N = ⊤) (hL : J.L = ⊤)
    {w k : ℕ} (_hw : w < n J) (hk1 : 1 ≤ k) (hkw : k ≤ w)
    (hprevs : ∀ v, v < w → ∀ k', k' ≤ v →
      (cellF J v k').cost < ⊤ ∧ (cellF J v k').lat < ⊤) :
    (cellCalc J (rowsUpTo J (w - 1)) w k).cost < ⊤ ∧
    (cellCalc J (rowsUpTo J (w - 1)) w k).lat < ⊤ := by
  unfold cellCalc
  apply bstep_top_fin hM hN hL
  · intro b hb
    rw [List.mem_reverse, List.mem_range'_1] at hb
    have hb' : k ≤ b ∧ b ≤ w := by omega
    have hcF : getCell (rowsUpTo J (w - 1)) (b - 1) (k - 1) =
        cellF J (b - 1) (k - 1) := cellF_stable (by omega)
    rw [hcF]
    exact hprevs (b - 1) (by omega) (k - 1) (by omega)
  · right
    refine ⟨rfl, ?_⟩
    intro hcon
    rw [List.reverse_eq_nil_iff, List.range'_eq_nil] at hcon
    omega

/-- With all bounds infinite, every cell of the DP triangle is finite: no
`break` fires, no candidate is rejected, and the pruning never triggers. -/
theorem top_cells {J : ChainIn} (hM : J.M = ⊤) (hN : J.N = ⊤) (hL : J.L = ⊤) :
    ∀ w, w < n J → ∀ k, k ≤ w →
      (cellF J w k).cost < ⊤ ∧ (cellF J w k).lat < ⊤ := by
  intro w
  induction w using Nat.strong_induction_on with
  | _ w ih =>
    intro hw k hk
    rcases Nat.eq_zero_or_pos k with rfl | hk1
    · rw [cellF_zero]
      unfold row0cell
      rw [if_pos (by rw [top_w0stop hM hN]; exact hw)]
      exact ⟨WithTop.coe_lt_top _, WithTop.coe_lt_top _⟩
    · have hw1 : 1 ≤ w := le_trans hk1 hk
      have hprevs : ∀ v, v < w → ∀ k', k' ≤ v →
          (cellF J v k').cost < ⊤ ∧ (cellF J v k').lat < ⊤ :=
        fun v hv k' hk' => ih v hv (by omega) k' hk'
      have hcell : cellF J w k = cellCalc J (rowsUpTo J (w - 1)) w k := by
        rw [cellF_succ_eq hw1]
        apply kstep_all
        · intro k' hk'
          rw [List.mem_range'_1] at hk'
          exact (cellCalc_top_fin hM hN hL hw hk'.1 (by omega) hprevs).2.ne
        · intro k' hk'
          rw [List.mem_range'_1] at hk'
          show k' < (baseRow J w).length
          simp [baseRow]
          omega
        · rw [List.mem_range'_1]
          omega
      rw [hcell]
      exact cellCalc_top_fin hM hN hL hw hk1 hk hprevs

/-- With all bounds infinite every `k ≥ 1` cell equals the freshly computed
candidate scan (the pruning `break` of the `k` loop never fires). -/
theorem cellF_top_calc {J : ChainIn} (hM : J.M = ⊤) (hN : J.N = ⊤) (hL : J.L = ⊤)
    {w k : ℕ} (hw : w < n J) (hk1 : 1 ≤ k) (hkw : k ≤ w) :
    cellF J w k = cellCalc J (rowsUpTo J (w - 1)) w k := by
  have hw1 : 1 ≤ w := le_trans hk1 hkw
  have hprevs : ∀ v, v < w → ∀ k', k' ≤ v →
      (cellF J v k').cost < ⊤ ∧ (cellF J v k').lat < ⊤ :=
    fun v hv k' hk' => top_cells hM hN hL v (by omega) k' hk'
  rw [cellF_succ_eq hw1]
  apply kstep_all
  · intro k' hk'
    rw [List.mem_range'_1] at hk'
    exact (cellCalc_top_fin hM hN hL hw hk'.1 (by omega) hprevs).2.ne
  · intro k' hk'
    rw [List.mem_range'_1] at hk'
    show k' < (baseRow J w).length
    simp [baseRow]
    omega
  · rw [List.mem_range'_1]
    omega

/-- Cell-wise cost dominance: the run with all bounds replaced by infinity
(same chain otherwise) never stores a more expensive cell than the bounded
run. -/
theorem top_dominates {I J : ChainIn}
    (hrt : J.runtime = I.runtime) (hra : J.rate = I.rate) (hun : J.unit = I.unit)
    (hM : J.M = ⊤) (hN : J.N = ⊤) (hL : J.L = ⊤) :
    ∀ w, w < n I → ∀ k, (cellF J w k).cost ≤ (cellF I w k).cost := by
  have hn : n J = n I := by unfold n; rw [hrt]
  have hcost : ∀ b v, cost J b v = cost I b v := by
    intro b v
    unfold cost block_cost
    rw [hrt, hra, hun]
  intro w
  induction w using Nat.strong_induction_on with
  | _ w ih =>
    intro hw k
    rcases Nat.eq_zero_or_pos k with rfl | hk1
    · rw [cellF_zero, cellF_zero]
      unfold row0cell
      rw [if_pos (show w < w0stop J by rw [top_w0stop hM hN, hn]; exact hw)]
      by_cases hwI : w < w0stop I
      · rw [if_pos hwI]
        show ((cost J 0 w : ℕ∞)) ≤ ((cost I 0 w : ℕ∞))
        rw [hcost]
      · rw [if_neg hwI]
        exact le_top
    · by_cases hIfin : (cellF I w k).cost < ⊤
      · obtain ⟨b, hbarr, hkb, hbw, hmem, hcpu, hcase⟩ := cell_inv (I := I) w k hIfin
        rcases hcase with ⟨hk0, -, -⟩ | ⟨-, hpf, hceq⟩
        · omega
        · have hkw : k ≤ w := le_trans hkb hbw
          have hcalc := cellF_top_calc hM hN hL
            (show w < n J by rw [hn]; exact hw) hk1 hkw
          rw [hcalc]
          unfold cellCalc
          have hbmem : b ∈ (List.range' k (w + 1 - k)).reverse := by
            rw [List.mem_reverse, List.mem_range'_1]
            omega
          have hle := bstep_top_le hM hN hL (rowsUpTo J (w - 1)) w k _ {} b hbmem
          rw [cellF_stable (I := J) (show b - 1 ≤ w - 1 by omega)] at hle
          have hdom := ih (b - 1) (by omega) (by omega) (k - 1)
          calc (bstep J (rowsUpTo J (w - 1)) w k
                ((List.range' k (w + 1 - k)).reverse) {}).cost
              ≤ (cellF J (b - 1) (k - 1)).cost + (cost J b w : ℕ∞) := hle
            _ ≤ (cellF I (b - 1) (k - 1)).cost + (cost I b w : ℕ∞) := by
                rw [hcost]
                exact add_le_add_right hdom _
            _ = (cellF I w k).cost := hceq.symm
      · push_neg at hIfin
        exact le_trans le_top hIfin

/-- Forward execution of the main DP branch: under the preflight guards the
function returns the backtracked optimum when the selected cell is finite,
and the `(None, inf, None)` triple otherwise. -/
theorem main_branch_eq {I : ChainIn} (hn : 2 ≤ n I)
    (h1 : ¬ I.L < (latMin I : ℕ∞)) (h2 : ¬ kMax I < kMin I) :
    ∃ kopt, kopt < n I ∧
      (∀ j, j < n I → (cellF I (n I - 1) kopt).cost ≤ (cellF I (n I - 1) j).cost) ∧
      (((cellF I (n I - 1) kopt).cost < ⊤ →
        ∃ bs, chain_partitioning I =
          some ⟨some bs, some (cellF I (n I - 1) kopt).cost,
            some (cellF I (n I - 1) kopt).lat⟩) ∧
      (¬ (cellF I (n I - 1) kopt).cost < ⊤ →
        chain_partitioning I = some ⟨none, some ⊤, none⟩)) := by
  have hn1 : 1 ≤ n I := by omega
  set costs := (List.range (n I)).map
    (fun x => (((dpRows I).getD (n I - 1) []).getD x {}).cost) with hcostsdef
  have hcosts : ∀ j, j < n I → costs.getD j ⊤ = (cellF I (n I - 1) j).cost := by
    intro j hj
    rw [hcostsdef, map_range_getD _ _ _ hj]
    show (getCell (dpRows I) (n I - 1) j).cost = _
    rw [cellF_dp le_rfl]
  have hclen : costs.length = n I := by simp [hcostsdef]
  cases hcs : costs with
  | nil => rw [hcs] at hclen; simp at hclen; omega
  | cons c0 crest =>
    set kopt := argminAux crest 1 0 c0 with hkodef
    have hspec := argminAux_spec (l := costs) crest 1 0 c0 (by omega)
      (by rw [hcs]; rfl)
      (by intro j hj
          have : j = 0 := by omega
          subst this
          rw [hcs]
          exact le_rfl)
      (by intro j hj; omega)
      (by intro t ht
          rw [hcs, Nat.add_comm 1 t]
          rfl)
      (by rw [hcs]; simp; omega)
    rw [← hkodef] at hspec
    obtain ⟨hko1, hko2, hko3⟩ := hspec
    rw [hclen] at hko1
    have hstcell : ((dpRows I).getD (n I - 1) []).getD kopt {} =
        cellF I (n I - 1) kopt := by
      show getCell (dpRows I) (n I - 1) kopt = _
      rw [cellF_dp le_rfl]
    have hmins : ∀ j, j < n I →
        (cellF I (n I - 1) kopt).cost ≤ (cellF I (n I - 1) j).cost := by
      intro j hj
      have := hko2 j (by omega)
      rwa [hcosts kopt hko1, hcosts j hj] at this
    refine ⟨kopt, hko1, hmins, ?_, ?_⟩
    · intro hfin
      obtain ⟨ds, hdslen, hdsok, hdsgo⟩ := extract_spec (I := I) kopt (n I - 1) []
        le_rfl (by omega) hn1 hfin
      have hext : extract_barr (dpRows I) kopt = some ds.reverse := by
        unfold extract_barr
        have hlen : ((dpRows I).length : ℤ) - 1 = (((n I - 1 : ℕ)) : ℤ) := by
          rw [dpRows_length hn1]
          omega
        rw [hlen, hdsgo]
        simp
      refine ⟨ds.reverse, ?_⟩
      simp only [chain_partitioning]
      rw [if_neg h1, if_neg h2, if_neg (by omega : ¬ n I = 1)]
      rw [← hcostsdef, hcs]
      simp only [argminIdx?]
      rw [← hkodef, hstcell, if_pos hfin, hext]
    · intro hfin
      simp only [chain_partitioning]
      rw [if_neg h1, if_neg h2, if_neg (by omega : ¬ n I = 1)]
      rw [← hcostsdef, hcs]
      simp only [argminIdx?]
      rw [← hkodef, hstcell, if_neg hfin]

end Chain

open Chain in
/-- Shape analysis of any run of `chain_partitioning` that returns a finite
cost: only the single-node branch and the successful DP branch can. -/
theorem cost_finite_cases {I : ChainIn} {r : ChainRes} {c : ℕ∞}
    (h : chain_partitioning I = some r) (hc : r.cost = some c) (hfin : c < ⊤) :
    ¬ I.L < (latMin I : ℕ∞) ∧ ¬ kMax I < kMin I ∧
      ((n I = 1 ∧ c = (cost I 0 0 : ℕ∞)) ∨
       (2 ≤ n I ∧ ∃ bs lt, r = ⟨some bs, some c, some lt⟩)) := by
  simp only [chain_partitioning] at h
  by_cases h1 : I.L < (latMin I : ℕ∞)
  · rw [if_pos h1] at h
    simp only [Option.some.injEq] at h
    rw [← h] at hc
    simp at hc
  rw [if_neg h1] at h
  by_cases h2 : kMax I < kMin I
  · rw [if_pos h2] at h
    simp only [Option.some.injEq] at h
    rw [← h] at hc
    simp at hc
  rw [if_neg h2] at h
  by_cases h3 : n I = 1
  · rw [if_pos h3] at h
    simp only [Option.some.injEq] at h
    rw [← h] at hc
    simp only [Option.some.injEq] at hc
    exact ⟨h1, h2, Or.inl ⟨h3, hc.symm⟩⟩
  rw [if_neg h3] at h
  refine ⟨h1, h2, Or.inr ⟨?_, ?_⟩⟩
  · -- the arg-min ran on a non-empty range, so `n ≥ 1`, and `n ≠ 1`
    rcases Nat.eq_zero_or_pos (n I) with h0 | hpos
    · rw [h0] at h
      simp only [List.range_zero, List.map_nil, argminIdx?] at h
      cases h
    · omega
  · cases hm : argminIdx? ((List.range (n I)).map
        (fun x => ((((dpRows I).getD (n I - 1) [])).getD x {}).cost)) with
    | none => rw [hm] at h; cases h
    | some kopt =>
      rw [hm] at h
      dsimp only at h
      by_cases hfin' : ((((dpRows I).getD (n I - 1) [])).getD kopt {}).cost < ⊤
      · rw [if_pos hfin'] at h
        cases hext : extract_barr (dpRows I) kopt with
        | none => rw [hext] at h; cases h
        | some bs =>
          rw [hext] at h
          simp only [Option.some.injEq] at h
          rw [← h] at hc
          simp only [Option.some.injEq] at hc
          exact ⟨bs, _, by rw [← h, hc]⟩
      · rw [if_neg hfin'] at h
        simp only [Option.some.injEq] at h
        rw [← h] at hc
        simp only [Option.some.injEq] at hc
        rw [← hc] at hfin
        exact absurd hfin (lt_irrefl _)

open Chain in
/-- **C7 (amended)**.  The literal bound-monotonicity claim is refuted by
`C7_cost_not_monotone_in_N`; what does hold is relaxation dominance: replacing
all three bounds `M`, `N`, `L` by infinity at once (same chain otherwise)
yields a run that also returns a cost, and that cost never exceeds any finite
cost the bounded run returns. -/
theorem C7_relaxed_bounds_dominate (I : ChainIn) (r : ChainRes) (c : ℕ∞)
    (h : chain_partitioning I = some r) (hc : r.cost = some c) (hfin : c < ⊤) :
    ∃ r' c', chain_partitioning { I with M := ⊤, N := ⊤, L := ⊤ } = some r' ∧
      r'.cost = some c' ∧ c' ≤ c := by
  obtain ⟨h1, h2, hcase⟩ := cost_finite_cases h hc hfin
  have h1J : ¬ ({ I with M := ⊤, N := ⊤, L := ⊤ } : ChainIn).L <
      (latMin { I with M := ⊤, N := ⊤, L := ⊤ } : ℕ∞) := not_top_lt
  have hkmin : kMin ({ I with M := ⊤, N := ⊤, L := ⊤ } : ChainIn) = 0 := by
    unfold kMin
    rw [List.countP_eq_zero.mpr ?_]
    · rfl
    · intro ij _
      simp
  have h2J : ¬ kMax ({ I with M := ⊤, N := ⊤, L := ⊤ } : ChainIn) <
      kMin ({ I with M := ⊤, N := ⊤, L := ⊤ } : ChainIn) := by
    rw [hkmin]
    exact Nat.not_lt_zero _
  rcases hcase with ⟨hn1, hcval⟩ | ⟨hn2, bs, lt, hr⟩
  · -- single-node branch: the relaxed run takes it too, with the same cost
    have hJrun : chain_partitioning { I with M := ⊤, N := ⊤, L := ⊤ } =
        some ⟨some [0], some (cost I 0 0 : ℕ∞), some (lat I 0 0 : ℕ∞)⟩ := by
      have hn1J : n ({ I with M := ⊤, N := ⊤, L := ⊤ } : ChainIn) = 1 := hn1
      simp only [chain_partitioning]
      rw [if_neg h1J, if_neg h2J, if_pos hn1J]
      rfl
    exact ⟨_, (cost I 0 0 : ℕ∞), hJrun, rfl, le_of_eq hcval.symm⟩
  · -- DP branch: cell-wise dominance carries the bound to the new arg-min
    subst hr
    obtain ⟨kopt, hko1, -, hkoc, -, -, -, -⟩ := main_branch_spec hn2 h
    have hcc : c = (cellF I (n I - 1) kopt).cost := by
      injection hkoc
    have hdom := top_dominates (I := I) (J := { I with M := ⊤, N := ⊤, L := ⊤ })
      rfl rfl rfl rfl rfl rfl (n I - 1) (by omega) kopt
    obtain ⟨koJ, hkoJ1, hminsJ, hfinJ, -⟩ :=
      main_branch_eq (I := { I with M := ⊤, N := ⊤, L := ⊤ }) hn2 h1J h2J
    have hle : (cellF { I with M := ⊤, N := ⊤, L := ⊤ }
        (n ({ I with M := ⊤, N := ⊤, L := ⊤ } : ChainIn) - 1) koJ).cost ≤ c := by
      calc (cellF { I with M := ⊤, N := ⊤, L := ⊤ }
            (n ({ I with M := ⊤, N := ⊤, L := ⊤ } : ChainIn) - 1) koJ).cost
          ≤ (cellF { I with M := ⊤, N := ⊤, L := ⊤ }
            (n ({ I with M := ⊤, N := ⊤, L := ⊤ } : ChainIn) - 1) kopt).cost :=
            hminsJ kopt hko1
        _ ≤ (cellF I (n I - 1) kopt).cost := hdom
        _ = c := hcc.symm
    obtain ⟨bs', hJrun⟩ := hfinJ (lt_of_le_of_lt hle hfin)
    exact ⟨_, _, hJrun, rfl, hle⟩

/-- Application of the relaxation-dominance theorem at a concrete bounded
instance whose DP run returns the finite cost 34. -/
theorem C7_relaxed_bounds_dominate_witness :
    ∃ r' c', chain_partitioning { dpGapIn with M := ⊤, N := ⊤, L := ⊤ } = some r' ∧
      r'.cost = some c' ∧ c' ≤ 34 :=
  C7_relaxed_bounds_dominate dpGapIn ⟨some [0, 3], some 34, some 4⟩ 34
    (by decide) rfl (by decide)

theorem ibacktrackGo_ne_nil (T : TreeIn) (start : ℕ) :
    ∀ fuel last, ibacktrackGo T start fuel last ≠ [] := by
  intro fuel last
  cases fuel with
  | zero => simp [ibacktrackGo]
  | succ fuel =>
    simp only [ibacktrackGo]
    split
    · simp
    · split <;> simp

theorem cpathList_ne_nil (T : TreeIn) (root cpe : ℕ) :
    cpathList T root cpe ≠ [] := by
  unfold cpathList
  rw [ne_eq, List.dedup_eq_nil]
  exact ibacktrackGo_ne_nil T root _ cpe

theorem treeCmax_coe (T : TreeIn) (root cpe l delay : ℕ) :
    treeCmax T root cpe (l : ℕ∞) delay =
      min (((l : ℤ) - (((cpathList T root cpe).map T.runtime).sum : ℤ)).fdiv
          (delay : ℤ))
        (((cpathList T root cpe).length : ℤ) - 1) := rfl

theorem treeCmax_neg_iff (T : TreeIn) (root cpe : ℕ) {l delay : ℕ}
    (hd : 1 ≤ delay) :
    treeCmax T root cpe (l : ℕ∞) delay < 0 ↔
      l < ((cpathList T root cpe).map T.runtime).sum := by
  rw [treeCmax_coe]
  constructor
  · intro h
    by_contra hge
    push_neg at hge
    have h1 : (0 : ℤ) ≤ (l : ℤ) - (((cpathList T root cpe).map T.runtime).sum : ℤ) := by
      omega
    have h2 : 0 ≤ ((l : ℤ) - (((cpathList T root cpe).map T.runtime).sum : ℤ)).fdiv
        (delay : ℤ) := Int.fdiv_nonneg h1 (by positivity)
    have hlen : 1 ≤ (cpathList T root cpe).length :=
      List.length_pos.mpr (cpathList_ne_nil T root cpe)
    have h3 : (0 : ℤ) ≤ ((cpathList T root cpe).length : ℤ) - 1 := by omega
    have := le_min h2 h3
    omega
  · intro h
    have h1 : (l : ℤ) - (((cpathList T root cpe).map T.runtime).sum : ℤ) < 0 := by
      omega
    have h2 : ((l : ℤ) - (((cpathList T root cpe).map T.runtime).sum : ℤ)).fdiv
        (delay : ℤ) < 0 := by
      rw [Int.fdiv_eq_ediv _ (by positivity)]
      exact Int.ediv_neg' h1 (by exact_mod_cast hd)
    exact lt_of_le_of_lt (min_le_left _ _) h2

open Chain in
/-- **C6 (amended)**.  Latency-infeasibility reporting.  Chain side: the
triple `(None, None, x)` is returned exactly when `L` is below the latency
lower bound, and then `x` is that bound `lat_min`.  Tree side: the preflight
of `mtp_tree_partitioning` fires exactly when `L` is below the runtime sum of
the critical path, but it returns `([], None, c_max)` where `c_max < 0` is
the floored remaining-cut bound — a negative number, not the latency lower
bound the claim describes. -/
theorem C6_latency_lower_bound_report :
    (∀ I : ChainIn, I.L < (latMin I : ℕ∞) →
      chain_partitioning I = some ⟨none, none, some (latMin I : ℕ∞)⟩) ∧
    (∀ (I : ChainIn) (x : ℕ∞), chain_partitioning I = some ⟨none, none, some x⟩ →
      I.L < (latMin I : ℕ∞) ∧ x = (latMin I : ℕ∞)) ∧
    (∀ (T : TreeIn) (root cpe l delay : ℕ), 1 ≤ delay →
      (mtp_latency_precheck T root cpe (l : ℕ∞) delay ≠ none ↔
        l < ((cpathList T root cpe).map T.runtime).sum) ∧
      (l < ((cpathList T root cpe).map T.runtime).sum →
        mtp_latency_precheck T root cpe (l : ℕ∞) delay =
          some ([], none, treeCmax T root cpe (l : ℕ∞) delay) ∧
        treeCmax T root cpe (l : ℕ∞) delay < 0)) := by
  refine ⟨?_, ?_, ?_⟩
  · intro I h
    simp only [chain_partitioning]
    rw [if_pos h]
  · intro I x h
    simp only [chain_partitioning] at h
    by_cases h1 : I.L < (latMin I : ℕ∞)
    · rw [if_pos h1] at h
      simp only [Option.some.injEq, ChainRes.mk.injEq] at h
      have := h.2.2
      simp only [Option.some.injEq] at this
      exact ⟨h1, this.symm⟩
    rw [if_neg h1] at h
    by_cases h2 : kMax I < kMin I
    · rw [if_pos h2] at h
      simp at h
    rw [if_neg h2] at h
    by_cases h3 : n I = 1
    · rw [if_pos h3] at h
      simp at h
    rw [if_neg h3] at h
    cases hm : argminIdx? ((List.range (n I)).map
        (fun x => ((((dpRows I).getD (n I - 1) [])).getD x {}).cost)) with
    | none => rw [hm] at h; cases h
    | some kopt =>
      rw [hm] at h
      dsimp only at h
      by_cases hfin' : ((((dpRows I).getD (n I - 1) [])).getD kopt {}).cost < ⊤
      · rw [if_pos hfin'] at h
        cases hext : extract_barr (dpRows I) kopt with
        | none => rw [hext] at h; cases h
        | some bs => rw [hext] at h; simp at h
      · rw [if_neg hfin'] at h
        simp at h
  · intro T root cpe l delay hd
    constructor
    · unfold mtp_latency_precheck
      dsimp only
      split
      · rename_i hneg
        simp only [ne_eq, Option.some_ne_none, not_false_eq_true, true_iff]
        exact (treeCmax_neg_iff T root cpe hd).mp hneg
      · rename_i hpos
        simp only [ne_eq, not_true_eq_false, false_iff, not_lt]
        exact le_of_not_lt (fun hcon =>
          hpos ((treeCmax_neg_iff T root cpe hd).mpr hcon))
    · intro h
      have hneg := (treeCmax_neg_iff T root cpe hd).mpr h
      refine ⟨?_, hneg⟩
      unfold mtp_latency_precheck
      rw [if_pos hneg]

/-- The preflight of `mtp_tree_partitioning` on a concrete L-infeasible tree
returns the negative cut bound `-7` as the third component, not the latency
lower bound `10` that the chain entry point reports on the same data. -/
theorem C6_mtp_reports_negative_cut_bound :
    mtp_latency_precheck latTree 1 2 ((3 : ℕ) : ℕ∞) 1 = some ([], none, -7) ∧
    ((cpathList latTree 1 2).map latTree.runtime).sum = 10 ∧
    (-7 : ℤ) ≠ (10 : ℤ) ∧
    chain_partitioning latChainIn = some ⟨none, none, some 10⟩ := by
  refine ⟨by decide, by decide, by decide, by decide⟩

/-- The latency-infeasibility reports evaluated on the concrete instances:
the chain returns the lower bound, the tree preflight fires with a negative
bound. -/
theorem C6_latency_lower_bound_report_witness :
    chain_partitioning latChainIn =
      some ⟨none, none, some (Chain.latMin latChainIn : ℕ∞)⟩ ∧
    (mtp_latency_precheck latTree 1 2 ((3 : ℕ) : ℕ∞) 1 =
      some ([], none, treeCmax latTree 1 2 ((3 : ℕ) : ℕ∞) 1) ∧
      treeCmax latTree 1 2 ((3 : ℕ) : ℕ∞) 1 < 0) :=
  ⟨C6_latency_lower_bound_report.1 latChainIn (by decide),
   (C6_latency_lower_bound_report.2.2 latTree 1 2 3 1 (by decide)).2 (by decide)⟩

/-- **C4 (amended)**.  Bound compliance of returned blocks.  Chain side: on
every chain with at least two nodes resolved through the DP, each returned
block obeys the memory and CPU bounds (the single-node branch performs no
such check, see `C4_single_node_skips_bounds`).  Tree side: the `qinsert`
insertion filter of `btp_tree_partitioning` only ever admits subcases whose
first block obeys both bounds. -/
theorem C4_blocks_obey_bounds :
    (∀ (I : ChainIn) (bs : List ℕ) (c lt : Option ℕ∞), 2 ≤ Chain.n I →
      chain_partitioning I = some ⟨some bs, c, lt⟩ →
      ∀ blk ∈ recreate_chain_blocks bs (Chain.n I),
        (block_memory I.memory (blk.headD 0) (blk.getLastD 0) : ℕ∞) ≤ I.M ∧
        (block_cpu I.rate (blk.headD 0) (blk.getLastD 0) : ℕ∞) ≤ I.N) ∧
    (∀ (M N : ℕ∞) (q : List TBlock) (blk b : TBlock),
      b ∈ qinsert M N q blk →
      b ∈ q ∨ (blk.mem ≤ M ∧ (blk.cpu : ℕ∞) ≤ N ∧ b = blk)) := by
  constructor
  · intro I bs c lt hn h
    exact Chain.chain_blocks_within_bounds hn h
  · intro M N q blk b hb
    unfold qinsert at hb
    split at hb
    · rename_i hok
      split at hb
      · rcases List.mem_cons.mp hb with rfl | hq
        · exact Or.inr ⟨hok.2.1, hok.2.2, rfl⟩
        · exact Or.inl hq
      · rcases List.mem_append.mp hb with hq | hone
        · exact Or.inl hq
        · rw [List.mem_singleton] at hone
          exact Or.inr ⟨hok.2.1, hok.2.2, hone⟩
    · exact Or.inl hb

/-- The single-node branch of `chain_partitioning` skips the memory check
when the node lies outside the latency window: on `singleOutIn` it returns
the partition `[[0]]` although the block memory `100` exceeds `M = 1`. -/
theorem C4_single_node_skips_bounds :
    chain_partitioning singleOutIn = some ⟨some [0], some 1, some 0⟩ ∧
    ¬ ((block_memory singleOutIn.memory 0 0 : ℕ∞) ≤ singleOutIn.M) := by
  refine ⟨by decide, by decide⟩

/-- The bound-compliance theorem evaluated at concrete inputs: the blocks of
the DP partition of `dpGapIn`, and a concrete `qinsert` insertion. -/
theorem C4_blocks_obey_bounds_witness :
    (∀ blk ∈ recreate_chain_blocks [0, 3] (Chain.n dpGapIn),
      (block_memory dpGapIn.memory (blk.headD 0) (blk.getLastD 0) : ℕ∞) ≤ dpGapIn.M ∧
      (block_cpu dpGapIn.rate (blk.headD 0) (blk.getLastD 0) : ℕ∞) ≤ dpGapIn.N) ∧
    ((⟨some 1, (5 : ℕ∞), 5, (2 : ℕ∞), 1, 1⟩ : TBlock) ∈ ([] : List TBlock) ∨
      ((⟨some 1, (5 : ℕ∞), 5, (2 : ℕ∞), 1, 1⟩ : TBlock).mem ≤ (3 : ℕ∞) ∧
       (((⟨some 1, (5 : ℕ∞), 5, (2 : ℕ∞), 1, 1⟩ : TBlock).cpu : ℕ∞)) ≤ (2 : ℕ∞) ∧
       (⟨some 1, (5 : ℕ∞), 5, (2 : ℕ∞), 1, 1⟩ : TBlock) =
         ⟨some 1, (5 : ℕ∞), 5, (2 : ℕ∞), 1, 1⟩)) :=
  ⟨C4_blocks_obey_bounds.1 dpGapIn [0, 3] (some 34) (some 4) (by decide) (by decide),
   C4_blocks_obey_bounds.2 3 2 [] ⟨some 1, (5 : ℕ∞), 5, (2 : ℕ∞), 1, 1⟩
     ⟨some 1, (5 : ℕ∞), 5, (2 : ℕ∞), 1, 1⟩ (by decide)⟩

open Chain in
/-- **C5 (amended)**.  When the preflight feasibility region is empty
(`k_max < k_min`), `chain_partitioning` returns the all-`None` triple — not
the claimed infinity cost; the `(None, inf, None)` outcome is produced
exactly when a run returns an infinite cost, and then the barriers and the
latency are `None` too (both outcomes remain distinguishable from a genuine
zero-cost partition). -/
theorem C5_empty_region_outcomes (I : ChainIn) (hpre : ¬ I.L < (latMin I : ℕ∞)) :
    (kMax I < kMin I → chain_partitioning I = some ⟨none, none, none⟩) ∧
    (∀ r, chain_partitioning I = some r → r.cost = some ⊤ →
      r = ⟨none, some ⊤, none⟩) := by
  constructor
  · intro hk
    simp only [chain_partitioning]
    rw [if_neg hpre, if_pos hk]
  · intro r h hcost
    simp only [chain_partitioning] at h
    rw [if_neg hpre] at h
    by_cases h2 : kMax I < kMin I
    · rw [if_pos h2] at h
      simp only [Option.some.injEq] at h
      rw [← h] at hcost
      simp at hcost
    rw [if_neg h2] at h
    by_cases h3 : n I = 1
    · rw [if_pos h3] at h
      simp only [Option.some.injEq] at h
      rw [← h] at hcost
      simp only [Option.some.injEq] at hcost
      exact absurd hcost (WithTop.coe_ne_top)
    rw [if_neg h3] at h
    cases hm : argminIdx? ((List.range (n I)).map
        (fun x => ((((dpRows I).getD (n I - 1) [])).getD x {}).cost)) with
    | none => rw [hm] at h; cases h
    | some kopt =>
      rw [hm] at h
      dsimp only at h
      by_cases hfin' : ((((dpRows I).getD (n I - 1) [])).getD kopt {}).cost < ⊤
      · rw [if_pos hfin'] at h
        cases hext : extract_barr (dpRows I) kopt with
        | none => rw [hext] at h; cases h
        | some bs =>
          rw [hext] at h
          simp only [Option.some.injEq] at h
          rw [← h] at hcost
          simp only [Option.some.injEq] at hcost
          rw [hcost] at hfin'
          exact absurd hfin' (lt_irrefl _)
      · rw [if_neg hfin'] at h
        simp only [Option.some.injEq] at h
        exact h.symm

/-- The preflight-empty branch evaluated on a concrete instance whose memory
demand forces `k_min = 10 > k_max`. -/
theorem C5_empty_region_outcomes_witness :
    chain_partitioning preflightEmptyIn = some ⟨none, none, none⟩ :=
  (C5_empty_region_outcomes preflightEmptyIn (by decide)).1 (by decide)

/-- **C10**.  On every input resolved through the DP (at least two nodes),
the returned barrier list has `k_opt + 1` blocks where `k_opt` is the least
index minimising the cost over the last DP row: the first minimal cell is
weakly below all cells and strictly below all earlier ones, so among
equal-cost optima the fewest-blocks partition is returned. -/
theorem C10_fewest_blocks (I : ChainIn) (bs : List ℕ) (c lt : Option ℕ∞)
    (hn : 2 ≤ Chain.n I) (h : chain_partitioning I = some ⟨some bs, c, lt⟩) :
    ∃ kopt, bs.length = kopt + 1 ∧
      c = some (Chain.cellF I (Chain.n I - 1) kopt).cost ∧
      (∀ j, j < Chain.n I →
        (Chain.cellF I (Chain.n I - 1) kopt).cost ≤ (Chain.cellF I (Chain.n I - 1) j).cost) ∧
      (∀ j, j < kopt →
        (Chain.cellF I (Chain.n I - 1) kopt).cost < (Chain.cellF I (Chain.n I - 1) j).cost) := by
  obtain ⟨k, h1, h2, h3, h4, -, h6, h7⟩ := Chain.main_branch_spec hn h
  exact ⟨k, h4, h3, h6, h7⟩

/-- **C10**, witness: on `dpGapIn` the returned partition `[0, 3]` has
`k_opt + 1 = 2` blocks, with `k_opt = 1` the least cost-minimiser of the
last DP row. -/
theorem C10_fewest_blocks_witness :
    ∃ kopt, ([0, 3] : List ℕ).length = kopt + 1 ∧
      (some 34 : Option ℕ∞) = some (Chain.cellF dpGapIn (Chain.n dpGapIn - 1) kopt).cost ∧
      (∀ j, j < Chain.n dpGapIn →
        (Chain.cellF dpGapIn (Chain.n dpGapIn - 1) kopt).cost ≤
          (Chain.cellF dpGapIn (Chain.n dpGapIn - 1) j).cost) ∧
      (∀ j, j < kopt →
        (Chain.cellF dpGapIn (Chain.n dpGapIn - 1) kopt).cost <
          (Chain.cellF dpGapIn (Chain.n dpGapIn - 1) j).cost) :=
  C10_fewest_blocks dpGapIn [0, 3] (some 34) (some 4) (by decide) (by decide)

/-- **C9**, witness. -/
theorem C9_single_node_chain_witness :
    chain_partitioning ⟨[150], [2], [3], (4 : ℕ), ⊤, (200 : ℕ), 0, none, 1, 100⟩ =
      some ⟨some [0], some ((3 * (cdiv 150 100 * 100) : ℕ) : ℕ∞),
        some ((if (0 : ℕ) = 0 then 150 else 0 : ℕ) : ℕ∞)⟩ := by
  exact C9_single_node_chain 150 2 3 (4 : ℕ) ⊤ (200 : ℕ) 0 none 1 100
    (fun _ => by constructor
                 · exact_mod_cast (by norm_num : (2:ℕ) ≤ 4)
                 · exact_mod_cast (by norm_num : (150:ℕ) ≤ 200))

end SAC
